import Mathlib

/-!
# Peak detection and quality score of the document colour decomposer

Shallow embedding of `FindExtremes`, `FindPeaks`, `ComputeIou`, `ComputePq`, `RadToDeg` and
`ProjOnPlane` from `src/utils.cc` and of the transfer functions `SRgbToLinRgb` and
`LinRgbToSRgb` from `src/doc_color_clustering/src/doc_color_clustering.cpp`.

* A histogram (`cv::Mat` read with `at<int>`) is a `List Int`; `hist.cols` is its length.
* C++ `int` arithmetic is 32-bit two's complement: every subtraction and product of
  `int`s is reduced with `wrap32`.
* A read of `std::vector` outside its bounds, or a loop that does not end, makes the
  result `none`.
* A `double` is the rational number it holds. `ComputePq` holds exact values; `ComputePqRounded`
  is the same function with every result of an operation on `double`s rounded, and
  `ComputePqDouble` rounds to the nearest `double`.
* The transfer functions are functions of real numbers with the real power function.
-/

namespace DocColorDecomposer

/-! ## Machine integers -/

/-- Reduction of an integer to the 32-bit two's complement range `[-2^31, 2^31)`. -/
def wrap32 (x : Int) : Int := (x + 2147483648) % 4294967296 - 2147483648

/-- Difference of two `int`s. -/
def sub32 (a b : Int) : Int := wrap32 (a - b)

/-- Product of two `int`s. -/
def mul32 (a b : Int) : Int := wrap32 (a * b)

/-! ## Histograms -/

/-- The read `hist.at<int>(k)`. -/
def histAt (hist : List Int) (k : Nat) : Int := hist.getD k 0

/-! ## FindExtremes -/

/-- The inner loop `while (hist.at<int>(++j % hist.cols) == hist.at<int>(i)) {}` of
`FindExtremes`, started with the given `j`; the result is the value of `j` after the loop.
The first argument bounds the number of increments of `j`. -/
def skipRun (hist : List Int) (i : Nat) : Nat → Nat → Option Nat
  | 0, _ => none
  | fuel + 1, j =>
    if histAt hist ((j + 1) % hist.length) = histAt hist i then skipRun hist i fuel (j + 1)
    else some (j + 1)

/-- One iteration of the `for` loop of `FindExtremes` at index `i`, on the pair
`(prev_delta, extremes)`. The product of two deltas is the parameter `mul`. -/
def extremesStep (mul : Int → Int → Int) (hist : List Int)
    (st : Int × List Nat) (i : Nat) : Option (Int × List Nat) :=
  let curr_delta := sub32 (histAt hist ((i + 1) % hist.length)) (histAt hist i)
  if st.1 ≠ 0 ∧ curr_delta = 0 then
    match skipRun hist i hist.length i with
    | none => none
    | some j =>
      let next_delta := sub32 (histAt hist (j % hist.length)) (histAt hist i)
      if mul st.1 next_delta < 0 then
        some (curr_delta, st.2 ++ [((i + j) / 2) % hist.length])
      else some (curr_delta, st.2)
  else if mul st.1 curr_delta < 0 then some (curr_delta, st.2 ++ [i])
  else some (curr_delta, st.2)

/-- The `for` loop of `FindExtremes` over the indices `is`. -/
def extremesLoop (mul : Int → Int → Int) (hist : List Int) :
    List Nat → Int × List Nat → Option (Int × List Nat)
  | [], st => some st
  | i :: is, st =>
    match extremesStep mul hist st i with
    | none => none
    | some st' => extremesLoop mul hist is st'

/-- The end of `FindExtremes`: `extremes[0]` and `extremes[1]` are read and the sorted list is
rotated by one place when the first element is the higher one. -/
def rotateToValley (hist : List Int) : List Nat → Option (List Nat)
  | e0 :: e1 :: rest =>
    if histAt hist e0 > histAt hist e1 then some (e1 :: rest ++ [e0]) else some (e0 :: e1 :: rest)
  | _ => none

/-- The function `FindExtremes` with the product of two deltas as a parameter. -/
def FindExtremesWith (mul : Int → Int → Int) (hist : List Int) : Option (List Nat) :=
  let prev_delta := sub32 (histAt hist 0) (histAt hist (hist.length - 1))
  match extremesLoop mul hist (List.range hist.length) (prev_delta, []) with
  | none => none
  | some st => rotateToValley hist (st.2.insertionSort (· ≤ ·))

/-- The function `FindExtremes` of `utils.cc`: the products are products of `int`s. -/
def FindExtremes (hist : List Int) : Option (List Nat) := FindExtremesWith mul32 hist

/-! ## FindPeaks -/

/-- The positions `1, 3, 5, ...` below `n`: `std::views::iota(1u, n) | std::views::stride(2)`. -/
def peakPositions (n : Nat) : List Nat := (List.range n).filter (fun k => k % 2 = 1)

/-- The test `std::min(lh, rh) >= min_h` of `FindPeaks` at position `peak_idx` of `extremes`. -/
def survives (hist : List Int) (extremes : List Nat) (min_h : Int) (peak_idx : Nat) : Bool :=
  let lh := sub32 (histAt hist (extremes.getD peak_idx 0))
    (histAt hist (extremes.getD ((peak_idx - 1) % extremes.length) 0))
  let rh := sub32 (histAt hist (extremes.getD peak_idx 0))
    (histAt hist (extremes.getD ((peak_idx + 1) % extremes.length) 0))
  decide (min lh rh ≥ min_h)

/-- One iteration of the loop of `FindPeaks` at position `peak_idx` of `extremes`. -/
def peaksStep (hist : List Int) (extremes : List Nat) (min_h : Int)
    (peaks : List Nat) (peak_idx : Nat) : List Nat :=
  if survives hist extremes min_h peak_idx then peaks ++ [extremes.getD peak_idx 0] else peaks

/-- The function `FindPeaks` of `utils.cc`. -/
def FindPeaks (hist : List Int) (min_h : Int) : Option (List Nat) :=
  match FindExtremes hist with
  | none => none
  | some extremes =>
    some (((peakPositions extremes.length).foldl (peaksStep hist extremes min_h) []).insertionSort
      (· ≤ ·))

/-! ## Test histograms -/

/-- The histogram with `n` bins whose bin `k` holds `f k`. -/
def histOf (n : Nat) (f : Nat → Int) : List Int := (List.range n).map f

/-- Three hues: one pixel at bin 10, 65536 pixels at bin 100, one pixel at bin 200. -/
def histThreeHues : List Int :=
  histOf 360 fun k => if k = 10 then 1 else if k = 100 then 65536 else if k = 200 then 1 else 0

/-- Two hues: 65536 pixels at bin 10 and one pixel at bin 100. -/
def histTwoHues : List Int :=
  histOf 360 fun k => if k = 10 then 65536 else if k = 100 then 1 else 0

/-- One hue: 65536 pixels at bin 10. -/
def histOneHue : List Int := histOf 360 fun k => if k = 10 then 65536 else 0

/-- The histogram with 65536 pixels at bin 10 and 98304 pixels at bin 11. -/
def histRisingPair : List Int :=
  histOf 360 fun k => if k = 10 then 65536 else if k = 11 then 98304 else 0

/-- The histogram with 65536 pixels at bin 0 and three pixels at bin 120. -/
def histWhiteAndRed : List Int :=
  histOf 360 fun k => if k = 0 then 65536 else if k = 120 then 3 else 0

/-! ## Well-formed histograms and the invariant of the loop of FindExtremes -/

/-- Every entry of the histogram is a 32-bit `int`. -/
@[reducible] def Int32Entries (hist : List Int) : Prop :=
  ∀ x ∈ hist, -2147483648 ≤ x ∧ x < 2147483648

/-- Bin `s` differs from the bin before it on the circle. -/
def Changes (hist : List Int) (s : Nat) : Prop :=
  histAt hist s ≠ histAt hist ((s + hist.length - 1) % hist.length)

/-- Invariant of the loop of `FindExtremes` before the iteration at index `i`: the extrema
pushed so far are the residues of strictly increasing positions, each inside the run that
starts at an earlier change of the histogram. -/
def ExtInv (hist : List Int) (i : Nat) (ext : List Nat) : Prop :=
  ∃ U : List Nat, ext = U.map (· % hist.length) ∧ U.Pairwise (· < ·) ∧
    (∀ m ∈ U, ∃ s, s ≤ m ∧ s < hist.length ∧ Changes hist s) ∧
    (∀ m ∈ U, ∀ s, s < hist.length → Changes hist s → m < s + hist.length) ∧
    (∀ m ∈ U, ∀ k, i ≤ k → k < hist.length → Changes hist k → m < k)

/-- Every entry of the histogram is a count: a non-negative `int`. -/
@[reducible] def Counts (hist : List Int) : Prop := ∀ x ∈ hist, 0 ≤ x ∧ x < 2147483648

/-! ## Masks and the quality score -/

/-- A mask: the pixel values of a single-channel 8-bit image, row by row. -/
abbrev Mask := List Nat

/-- The image `a & b`: the bitwise conjunction of the pixels. -/
def bitwiseAnd (a b : Mask) : Mask := List.zipWith (fun x y => x &&& y) a b

/-- The image `a | b`: the bitwise disjunction of the pixels. -/
def bitwiseOr (a b : Mask) : Mask := List.zipWith (fun x y => x ||| y) a b

/-- The number of non-zero pixels, `cv::countNonZero`. -/
def countNonZero (m : Mask) : Nat := m.countP (fun v => v != 0)

/-- Quotient of two `double`s that hold the exact values `a` and `b`. The result `none` is the
quotient by zero, which is NaN when `a` is zero too; other quotients are exact. -/
def divDouble (a b : ℚ) : Option ℚ := if b = 0 then none else some (a / b)

/-- The function `ComputeIou` of `utils.cc`. -/
def ComputeIou (predicted_mask truth_mask : Mask) : Option ℚ :=
  let intersection_area : ℚ := countNonZero (bitwiseAnd predicted_mask truth_mask)
  let union_area : ℚ := countNonZero (bitwiseOr predicted_mask truth_mask)
  divDouble intersection_area union_area

/-- One iteration of the inner loop of `ComputePq` on the pair `(max_iou, max_iou_idx)`:
a NaN compares false with every number. -/
def bestMatchStep (predicted_mask : Mask) (st : ℚ × Nat) (it : Nat × Mask) : ℚ × Nat :=
  match ComputeIou predicted_mask it.2 with
  | some iou => if iou ≥ st.1 then (iou, it.1) else st
  | none => st

/-- The inner loop of `ComputePq`: the pair `(max_iou, max_iou_idx)` for one predicted mask.
The index starts at `std::size_t(-1)`. -/
def bestMatch (predicted_mask : Mask) (truth_masks : List Mask) : ℚ × Nat :=
  truth_masks.enum.foldl (bestMatchStep predicted_mask) (0, 18446744073709551615)

/-- The variables of `ComputePq` that its outer loop updates. -/
structure PqState where
  sum_iou : ℚ
  tp : Nat
  matched_predicted_masks : List Bool
  matched_truth_masks : List Bool
deriving DecidableEq

/-- One iteration of the outer loop of `ComputePq`. -/
def pqStep (truth_masks : List Mask) (st : PqState) (it : Nat × Mask) : PqState :=
  let best := bestMatch it.2 truth_masks
  if best.1 ≥ 1 / 2 then
    { sum_iou := st.sum_iou + best.1
      tp := st.tp + 1
      matched_predicted_masks := st.matched_predicted_masks.set it.1 true
      matched_truth_masks := st.matched_truth_masks.set best.2 true }
  else st

/-- The outer loop of `ComputePq`. -/
def pqLoop (predicted_masks truth_masks : List Mask) : PqState :=
  predicted_masks.enum.foldl (pqStep truth_masks)
    { sum_iou := 0
      tp := 0
      matched_predicted_masks := List.replicate predicted_masks.length false
      matched_truth_masks := List.replicate truth_masks.length false }

/-- The number `fp` of `ComputePq`. -/
def falsePositives (predicted_masks truth_masks : List Mask) : Nat :=
  (pqLoop predicted_masks truth_masks).matched_predicted_masks.count false

/-- The number `fn` of `ComputePq`. -/
def falseNegatives (predicted_masks truth_masks : List Mask) : Nat :=
  (pqLoop predicted_masks truth_masks).matched_truth_masks.count false

/-- The denominator `tp + 0.5 * (fp + fn)` of `ComputePq`. -/
def pqDenominator (predicted_masks truth_masks : List Mask) : ℚ :=
  (pqLoop predicted_masks truth_masks).tp +
    1 / 2 * (falsePositives predicted_masks truth_masks +
      falseNegatives predicted_masks truth_masks)

/-- The function `ComputePq` of `utils.cc`. -/
def ComputePq (predicted_masks truth_masks : List Mask) : Option ℚ :=
  divDouble (pqLoop predicted_masks truth_masks).sum_iou (pqDenominator predicted_masks truth_masks)

/-- The test `max_iou >= 0.5` of `ComputePq` for the predicted mask `p`. -/
def matched (truth_masks : List Mask) (p : Mask) : Bool :=
  decide ((bestMatch p truth_masks).1 ≥ 1 / 2)

/-- A binary mask of `n` pixels: every pixel is 0 or 255. -/
@[reducible] def BinaryMask (n : Nat) (m : Mask) : Prop :=
  m.length = n ∧ ∀ v ∈ m, v = 0 ∨ v = 255

/-- The IoU of `p` and `t` is a number that is at least 0.5. -/
def iouAtLeastHalf (p t : Mask) : Bool :=
  match ComputeIou p t with
  | some q => decide (1 / 2 ≤ q)
  | none => false

/-- No predicted mask of `P` has the same IoU of at least 0.5 with two truth masks of `T`. -/
@[reducible] def NoTies (P T : List Mask) : Prop :=
  T.Pairwise fun a b => ∀ p ∈ P, ComputeIou p a = ComputeIou p b → iouAtLeastHalf p a = false

/-- The truth mask `t` has, with some matched predicted mask of `P`, the largest IoU that
this predicted mask has with a truth mask of `T`. -/
def isBestOf (P T : List Mask) (t : Mask) : Bool :=
  P.any fun p => matched T p && decide (ComputeIou p t = some (bestMatch p T).1)

/-! ## Doubles with rounding -/

/-- The integer nearest to `r`, halfway cases to the even one: the rounding of IEEE 754
and of `cvRound`. -/
def roundHalfEven {α : Type} [LinearOrderedField α] [FloorRing α] (r : α) : Int :=
  if Int.fract r < 1 / 2 then ⌊r⌋
  else if 1 / 2 < Int.fract r then ⌊r⌋ + 1
  else if ⌊r⌋ % 2 = 0 then ⌊r⌋ else ⌊r⌋ + 1

/-- The power `2 ^ e` for an integer `e`. -/
def pow2 (e : Int) : ℚ := if 0 ≤ e then ((2 ^ e.toNat : Nat) : ℚ) else 1 / ((2 ^ (-e).toNat : Nat) : ℚ)

/-- The number of halvings of `n` that lead below 2, at most `fuel` of them. -/
def halvings : Nat → Nat → Nat
  | 0, _ => 0
  | fuel + 1, n => if n < 2 then 0 else halvings fuel (n / 2) + 1

/-- The exponent `e` of a positive number `x`: `2 ^ e ≤ x < 2 ^ (e + 1)`. -/
def binade (x : ℚ) : Int :=
  let e0 : Int := (halvings x.num.toNat x.num.toNat : Int) - (halvings x.den x.den : Int)
  if pow2 e0 ≤ x then e0 else e0 - 1

/-- The `double` nearest to the number `x` (53 significant bits, halfway cases to the even
significand); the range of the exponent is not bounded. -/
def roundDouble (x : ℚ) : ℚ :=
  if x = 0 then 0
  else if 0 < x then (roundHalfEven (x / pow2 (binade x - 52)) : ℚ) * pow2 (binade x - 52)
  else -((roundHalfEven (-x / pow2 (binade (-x) - 52)) : ℚ) * pow2 (binade (-x) - 52))

/-! ## ComputePq with rounding -/

/-- The function `ComputeIou` when the quotient of the two `double`s is rounded with `rnd`. -/
def ComputeIouRounded (rnd : ℚ → ℚ) (predicted_mask truth_mask : Mask) : Option ℚ :=
  let intersection_area : ℚ := countNonZero (bitwiseAnd predicted_mask truth_mask)
  let union_area : ℚ := countNonZero (bitwiseOr predicted_mask truth_mask)
  if union_area = 0 then none else some (rnd (intersection_area / union_area))

/-- One iteration of the inner loop of `ComputePq` with the rounded IoU. -/
def bestMatchStepRounded (rnd : ℚ → ℚ) (predicted_mask : Mask) (st : ℚ × Nat)
    (it : Nat × Mask) : ℚ × Nat :=
  match ComputeIouRounded rnd predicted_mask it.2 with
  | some iou => if iou ≥ st.1 then (iou, it.1) else st
  | none => st

/-- The inner loop of `ComputePq` with the rounded IoU. -/
def bestMatchRounded (rnd : ℚ → ℚ) (predicted_mask : Mask) (truth_masks : List Mask) : ℚ × Nat :=
  truth_masks.enum.foldl (bestMatchStepRounded rnd predicted_mask) (0, 18446744073709551615)

/-- One iteration of the outer loop of `ComputePq` when the sum `sum_iou += max_iou` of two
`double`s is rounded with `rnd`. -/
def pqStepRounded (rnd : ℚ → ℚ) (truth_masks : List Mask) (st : PqState) (it : Nat × Mask) :
    PqState :=
  let best := bestMatchRounded rnd it.2 truth_masks
  if best.1 ≥ 1 / 2 then
    { sum_iou := rnd (st.sum_iou + best.1)
      tp := st.tp + 1
      matched_predicted_masks := st.matched_predicted_masks.set it.1 true
      matched_truth_masks := st.matched_truth_masks.set best.2 true }
  else st

/-- The outer loop of `ComputePq` with rounded sums. -/
def pqLoopRounded (rnd : ℚ → ℚ) (predicted_masks truth_masks : List Mask) : PqState :=
  predicted_masks.enum.foldl (pqStepRounded rnd truth_masks)
    { sum_iou := 0
      tp := 0
      matched_predicted_masks := List.replicate predicted_masks.length false
      matched_truth_masks := List.replicate truth_masks.length false }

/-- The function `ComputePq` when the result of every operation on `double`s is rounded with
`rnd`: the quotient of `ComputeIou`, the sum `sum_iou += max_iou`, and the sum, the product,
the sum and the quotient of `sum_iou / (tp + 0.5 * (fp + fn))`. The counts `tp`, `fp` and
`fn` are whole numbers, which a `double` holds exactly below `2 ^ 53`. -/
def ComputePqRounded (rnd : ℚ → ℚ) (predicted_masks truth_masks : List Mask) : Option ℚ :=
  let st := pqLoopRounded rnd predicted_masks truth_masks
  let fp : ℚ := st.matched_predicted_masks.count false
  let fn : ℚ := st.matched_truth_masks.count false
  let denominator := rnd (st.tp + rnd (1 / 2 * rnd (fp + fn)))
  if denominator = 0 then none else some (rnd (st.sum_iou / denominator))

/-- The function `ComputePq` of `utils.cc` in the arithmetic of `double`s. -/
def ComputePqDouble (predicted_masks truth_masks : List Mask) : Option ℚ :=
  ComputePqRounded roundDouble predicted_masks truth_masks

/-- The three predicted masks of the example: 1, 5 and 3 pixels of 16, pairwise disjoint. -/
def threePredicted : List Mask :=
  [[255, 0, 0, 0, 0, 0, 0, 0, 0, 0, 0, 0, 0, 0, 0, 0],
   [0, 0, 255, 255, 255, 255, 255, 0, 0, 0, 0, 0, 0, 0, 0, 0],
   [0, 0, 0, 0, 0, 0, 0, 0, 0, 0, 0, 255, 255, 255, 0, 0]]

/-- The predicted masks of the example with the last two exchanged. -/
def threePredictedSwapped : List Mask :=
  [[255, 0, 0, 0, 0, 0, 0, 0, 0, 0, 0, 0, 0, 0, 0, 0],
   [0, 0, 0, 0, 0, 0, 0, 0, 0, 0, 0, 255, 255, 255, 0, 0],
   [0, 0, 255, 255, 255, 255, 255, 0, 0, 0, 0, 0, 0, 0, 0, 0]]

/-- The truth masks of the example: 2, 9 and 5 pixels that hold the predicted masks, the
first one twice. The IoUs of the predicted masks are 1/2 (with both copies), 5/9 and 3/5. -/
def fourTruth : List Mask :=
  [[255, 255, 0, 0, 0, 0, 0, 0, 0, 0, 0, 0, 0, 0, 0, 0],
   [255, 255, 0, 0, 0, 0, 0, 0, 0, 0, 0, 0, 0, 0, 0, 0],
   [0, 0, 255, 255, 255, 255, 255, 255, 255, 255, 255, 0, 0, 0, 0, 0],
   [0, 0, 0, 0, 0, 0, 0, 0, 0, 0, 0, 255, 255, 255, 255, 255]]

/-! ## The hue angle -/

/-- The function `std::lround` on the exact value of a `double`: the nearest integer, halfway
cases away from zero. -/
def lround (x : ℚ) : Int := if 0 ≤ x then ⌊x + 1 / 2⌋ else -⌊-x + 1 / 2⌋

/-- The function `RadToDeg` of `utils.cc`. The constant `CV_PI` of OpenCV is the parameter
`cv_pi`; the arithmetic of `double`s is exact and `%` is the remainder of C++, which has the
sign of the dividend. -/
def RadToDeg (cv_pi : ℚ) (rad : ℚ) : Int := Int.tmod (lround (rad * 180 / cv_pi + 360)) 360

/-! ## The chromatic projection -/

/-- Difference of two 1×3 matrices. -/
def vecSub (a b : ℚ × ℚ × ℚ) : ℚ × ℚ × ℚ := (a.1 - b.1, a.2.1 - b.2.1, a.2.2 - b.2.2)

/-- Product of a number and a 1×3 matrix. -/
def vecScale (s : ℚ) (a : ℚ × ℚ × ℚ) : ℚ × ℚ × ℚ := (s * a.1, s * a.2.1, s * a.2.2)

/-- The function `cv::Mat::dot` on two 1×3 matrices. -/
def vecDot (a b : ℚ × ℚ × ℚ) : ℚ := a.1 * b.1 + a.2.1 * b.2.1 + a.2.2 * b.2.2

/-- The product `x * m.t()` of a 1×3 matrix and the transpose of a 3×3 matrix, given by its
rows. -/
def mulTransposed (x : ℚ × ℚ × ℚ) (m : (ℚ × ℚ × ℚ) × (ℚ × ℚ × ℚ) × (ℚ × ℚ × ℚ)) : ℚ × ℚ × ℚ :=
  (vecDot x m.1, vecDot x m.2.1, vecDot x m.2.2)

/-- The function `ProjOnPlane` of `utils.cc`, on the exact values of the `double`s. -/
def ProjOnPlane (point center norm : ℚ × ℚ × ℚ)
    (transformation : (ℚ × ℚ × ℚ) × (ℚ × ℚ × ℚ) × (ℚ × ℚ × ℚ)) : ℚ × ℚ × ℚ :=
  let default_proj : ℚ × ℚ × ℚ := (0, 0, 0)
  let is_white : Bool := decide (vecDot norm (vecSub point center) = 0)
  if !is_white then
    mulTransposed
      (vecSub center
        (vecScale (vecDot norm center / vecDot norm (vecSub point center)) (vecSub point center)))
      transformation
  else default_proj

/-- The function `DocColorClustering::CentralProjOnLab` of `doc_color_clustering.cpp`. The
values of `std::sqrt(2.0)`, `std::sqrt(3.0)` and `std::sqrt(6.0)` are the parameters; the
result is `none` when the quotient is a quotient by zero. -/
def CentralProjOnLab (sqrt2 sqrt3 sqrt6 : ℚ) (rgb_point : ℚ × ℚ × ℚ) : Option (ℚ × ℚ × ℚ) :=
  let white : ℚ × ℚ × ℚ := (1, 1, 1)
  let norm : ℚ × ℚ × ℚ := (1 / sqrt3, 1 / sqrt3, 1 / sqrt3)
  let rgb_to_lab : (ℚ × ℚ × ℚ) × (ℚ × ℚ × ℚ) × (ℚ × ℚ × ℚ) :=
    ((1 / sqrt2, -1 / sqrt2, 0), (-1 / sqrt6, -1 / sqrt6, 2 / sqrt6),
      (1 / sqrt3, 1 / sqrt3, 1 / sqrt3))
  if rgb_point.1 = 1 ∧ rgb_point.2.1 = 1 ∧ rgb_point.2.2 = 1 then some (0, 0, 0)
  else
    match divDouble (vecDot norm white) (vecDot norm (vecSub rgb_point white)) with
    | none => none
    | some q =>
      let proj_in_rgb := vecSub white (vecScale q (vecSub rgb_point white))
      some (mulTransposed proj_in_rgb rgb_to_lab)

/-! ## Clusters and masks -/

/-- Modelled from the spec: the circular distance `min(|h-p|, 360-|h-p|)` of the Cluster
Assigner of §4.5; the implementation of `DocColorDecomposer` is not among the sources. -/
def circularDistance (h p : Nat) : Nat :=
  let d := if h ≤ p then p - h else h - p
  min d (360 - d)

/-- Modelled from the spec: one step of the search of the Cluster Assigner of §4.5 for the
surviving peak nearest to the hue angle `h`, on the pair (smallest distance, its cluster id).
A peak at the same distance as an earlier one does not replace it: exact ties go to the peak
with the lower index. -/
def nearestPeakStep (h : Nat) (best : Nat × Nat) (it : Nat × Nat) : Nat × Nat :=
  if circularDistance h it.2 < best.1 then (circularDistance h it.2, it.1) else best

/-- Modelled from the spec: the Cluster Assigner of §4.5, the cluster id of the hue angle `h`;
the implementation of `DocColorDecomposer` is not among the sources. The cluster ids are the
positions of the surviving peaks in ascending order. Without a surviving peak the result is
the minimal one of §7, a single cluster that covers all pixels, and the cluster id is 0. -/
def assignCluster (peaks : List Nat) (h : Nat) : Nat :=
  match peaks with
  | [] => 0
  | p0 :: rest => ((rest.enumFrom 1).foldl (nearestPeakStep h) (circularDistance h p0, 0)).2

/-- Modelled from the spec: the number of clusters; the implementation of
`DocColorDecomposer` is not among the sources. There is one cluster for each surviving peak
(§4.6), and the single cluster of the minimal result of §7 when no peak survives. -/
def clusterCount (peaks : List Nat) : Nat :=
  match peaks with
  | [] => 1
  | _ :: rest => rest.length + 1

/-- Modelled from the spec: the masks of the Layer/Mask Materializer of §4.6, which `GetMasks`
returns, for an image given by the hue angles of its pixels; the implementation of
`DocColorDecomposer` is not among the sources. There is one mask for each cluster, and a
pixel is 255 in the mask of the cluster of its hue angle and 0 in the other masks. -/
def GetMasks (peaks : List Nat) (pixel_hues : List Nat) : List Mask :=
  (List.range (clusterCount peaks)).map fun c =>
    pixel_hues.map fun h => if assignCluster peaks h = c then 255 else 0

/-- The number of masks in which pixel `i` is set. -/
def masksWithPixel (masks : List Mask) (i : Nat) : Nat :=
  masks.countP fun m => m.getD i 0 != 0

/-- The pixel `i` is set in the mask `a` and in the mask `b`. -/
def overlapAt (a b : Mask) (i : Nat) : Bool := a.getD i 0 != 0 && b.getD i 0 != 0

/-! ## FindExtremes with unbounded integers -/

/-- One iteration of the `for` loop of `FindExtremes` when the differences and the products
are those of unbounded integers. -/
def extremesStepExact (hist : List Int) (st : Int × List Nat) (i : Nat) :
    Option (Int × List Nat) :=
  let curr_delta := histAt hist ((i + 1) % hist.length) - histAt hist i
  if st.1 ≠ 0 ∧ curr_delta = 0 then
    match skipRun hist i hist.length i with
    | none => none
    | some j =>
      let next_delta := histAt hist (j % hist.length) - histAt hist i
      if st.1 * next_delta < 0 then
        some (curr_delta, st.2 ++ [((i + j) / 2) % hist.length])
      else some (curr_delta, st.2)
  else if st.1 * curr_delta < 0 then some (curr_delta, st.2 ++ [i])
  else some (curr_delta, st.2)

/-- The `for` loop of `FindExtremes` with unbounded integers. -/
def extremesLoopExact (hist : List Int) : List Nat → Int × List Nat → Option (Int × List Nat)
  | [], st => some st
  | i :: is, st =>
    match extremesStepExact hist st i with
    | none => none
    | some st' => extremesLoopExact hist is st'

/-- The function `FindExtremes` computed with unbounded integers in place of `int`. -/
def FindExtremesExact (hist : List Int) : Option (List Nat) :=
  let prev_delta := histAt hist 0 - histAt hist (hist.length - 1)
  match extremesLoopExact hist (List.range hist.length) (prev_delta, []) with
  | none => none
  | some st => rotateToValley hist (st.2.insertionSort (· ≤ ·))

/-- Every entry of the histogram is between 0 and 46340. -/
@[reducible] def SmallCounts (hist : List Int) : Prop := ∀ x ∈ hist, 0 ≤ x ∧ x ≤ 46340

/-! ## Points on a line through the centre of the projection -/

/-- Sum of two 1×3 matrices. -/
def vecAdd (a b : ℚ × ℚ × ℚ) : ℚ × ℚ × ℚ := (a.1 + b.1, a.2.1 + b.2.1, a.2.2 + b.2.2)

/-- The point at the parameter `t` of the line from the centre `c` through the point `p`:
`c + t * (p - c)`. -/
def pointOnRay (c p : ℚ × ℚ × ℚ) (t : ℚ) : ℚ × ℚ × ℚ := vecAdd c (vecScale t (vecSub p c))

/-! ## The transfer functions of sRGB -/

/-- The body of the loop of `DocColorClustering::SRgbToLinRgb` for one channel of one pixel,
on real numbers: the values of the `float`s and of `std::pow` are exact. -/
noncomputable def sRgbToLinChannel (v : ℝ) : ℝ :=
  if v ≤ 0.04045 then v / 12.92 else ((v + 0.055) / 1.055) ^ (2.4 : ℝ)

/-- The body of the loop of `DocColorClustering::LinRgbToSRgb` for one channel of one pixel,
on real numbers. -/
noncomputable def linToSRgbChannel (v : ℝ) : ℝ :=
  if v ≤ 0.0031308 then v * 12.92 else 1.055 * v ^ ((1 : ℝ) / 2.4) - 0.055

/-- The conversion `saturate_cast<uchar>` of an integer to the range 0..255. -/
def saturateUchar (z : Int) : Nat := if z < 0 then 0 else if 255 < z then 255 else z.toNat

/-- The function `DocColorClustering::SRgbToLinRgb` on the list of the channel values of an
8-bit image: `convertTo(CV_32FC3, 1.0 / 255.0)` and the loop over the channels. -/
noncomputable def SRgbToLinRgb (src : List Nat) : List ℝ :=
  src.map fun (x : Nat) => sRgbToLinChannel ((x : ℝ) * (1 / 255))

/-- The function `DocColorClustering::LinRgbToSRgb` on the list of the channel values of an
image: the loop over the channels and `convertTo(CV_8UC3, 255.0)`, which multiplies by 255,
rounds to the nearest integer and saturates. -/
noncomputable def LinRgbToSRgb (src : List ℝ) : List Nat :=
  src.map fun (v : ℝ) => saturateUchar (roundHalfEven (linToSRgbChannel v * 255))

/-! ## Facts about the arithmetic and the reads -/

theorem wrap32_zero : wrap32 0 = 0 := by decide

theorem sub32_self (a : Int) : sub32 a a = 0 := by
  simp [sub32, wrap32_zero]

theorem mul32_zero_left (a : Int) : mul32 0 a = 0 := by
  simp [mul32, wrap32_zero]

theorem histAt_replicate (n : Nat) (c : Int) (k : Nat) (hk : k < n) :
    histAt (List.replicate n c) k = c := by
  simp [histAt, List.getD_eq_getElem?_getD, List.getElem?_replicate, hk]

/-! ## The loop of FindExtremes on a constant histogram -/

theorem extremesStep_replicate (n : Nat) (c : Int) (i : Nat) (hi : i < n) :
    extremesStep mul32 (List.replicate n c) (0, []) i = some (0, []) := by
  have hn : 0 < n := by omega
  have h1 : histAt (List.replicate n c) ((i + 1) % n) = c :=
    histAt_replicate n c _ (Nat.mod_lt _ hn)
  have h2 : histAt (List.replicate n c) i = c := histAt_replicate n c i hi
  simp [extremesStep, h1, h2, sub32_self, mul32_zero_left]

theorem extremesLoop_replicate (n : Nat) (c : Int) (is : List Nat) (his : ∀ i ∈ is, i < n) :
    extremesLoop mul32 (List.replicate n c) is (0, []) = some (0, []) := by
  induction is with
  | nil => rfl
  | cons i is ih =>
    have hi : i < n := his i (List.mem_cons_self _ _)
    simp only [extremesLoop, extremesStep_replicate n c i hi]
    exact ih fun k hk => his k (List.mem_cons_of_mem _ hk)

theorem prevDelta_replicate (n : Nat) (c : Int) :
    sub32 (histAt (List.replicate n c) 0) (histAt (List.replicate n c) (n - 1)) = 0 := by
  rcases Nat.eq_zero_or_pos n with h | h
  · subst h
    simp [histAt, sub32_self]
  · rw [histAt_replicate n c 0 h, histAt_replicate n c (n - 1) (by omega), sub32_self]

/-! ## The loop of FindPeaks -/

theorem foldl_peaksStep (hist : List Int) (extremes : List Nat) (min_h : Int)
    (ks : List Nat) (acc : List Nat) :
    ks.foldl (peaksStep hist extremes min_h) acc =
      acc ++ (ks.filter (survives hist extremes min_h)).map (fun k => extremes.getD k 0) := by
  induction ks generalizing acc with
  | nil => simp
  | cons k ks ih =>
    rw [List.foldl_cons, ih]
    by_cases h : survives hist extremes min_h k = true
    · simp [peaksStep, List.filter_cons, h]
    · simp [peaksStep, List.filter_cons, h]

theorem survives_mono (hist : List Int) (extremes : List Nat) (t1 t2 : Int) (h : t1 ≤ t2)
    (k : Nat) (hk : survives hist extremes t2 k = true) : survives hist extremes t1 k = true := by
  simp only [survives, decide_eq_true_eq, ge_iff_le] at hk ⊢
  exact le_trans h hk

/-- The peaks pushed by the loop of `FindPeaks`, before they are sorted. -/
theorem FindPeaks_eq (hist : List Int) (min_h : Int) (extremes : List Nat)
    (he : FindExtremes hist = some extremes) :
    FindPeaks hist min_h = some ((((peakPositions extremes.length).filter
      (survives hist extremes min_h)).map (fun k => extremes.getD k 0)).insertionSort (· ≤ ·)) := by
  simp [FindPeaks, he, foldl_peaksStep]

/-! ## The extrema are pairwise different -/

theorem wrap32_eq_self (x : Int) (h1 : -2147483648 ≤ x) (h2 : x < 2147483648) : wrap32 x = x := by
  unfold wrap32
  omega

theorem wrap32_eq_zero_iff (x : Int) (h1 : -4294967296 < x) (h2 : x < 4294967296) :
    wrap32 x = 0 ↔ x = 0 := by
  unfold wrap32
  omega

theorem histAt_int32 (hist : List Int) (h : Int32Entries hist) (k : Nat) :
    -2147483648 ≤ histAt hist k ∧ histAt hist k < 2147483648 := by
  unfold histAt
  rw [List.getD_eq_getElem?_getD]
  cases hk : hist[k]? with
  | none => simp
  | some x =>
    have hx : x ∈ hist := List.getElem?_mem hk
    simpa using h x hx

theorem sub32_eq_zero_iff (hist : List Int) (h : Int32Entries hist) (a b : Nat) :
    sub32 (histAt hist a) (histAt hist b) = 0 ↔ histAt hist a = histAt hist b := by
  have ha := histAt_int32 hist h a
  have hb := histAt_int32 hist h b
  unfold sub32
  rw [wrap32_eq_zero_iff _ (by omega) (by omega)]
  omega

/-- What the inner loop of `FindExtremes` leaves in `j`: the bins from the start up to `j - 1`
hold the value of bin `i`, bin `j` does not. -/
theorem skipRun_spec (hist : List Int) (i : Nat) (fuel : Nat) (j0 j : Nat)
    (h : skipRun hist i fuel j0 = some j) :
    j0 < j ∧ (∀ k, j0 < k → k < j → histAt hist (k % hist.length) = histAt hist i) ∧
      histAt hist (j % hist.length) ≠ histAt hist i := by
  induction fuel generalizing j0 with
  | zero => simp [skipRun] at h
  | succ fuel ih =>
    unfold skipRun at h
    split at h
    · rename_i heq
      obtain ⟨h1, h2, h3⟩ := ih (j0 + 1) h
      refine ⟨by omega, ?_, h3⟩
      intro k hk1 hk2
      rcases Nat.eq_or_lt_of_le (Nat.succ_le_of_lt hk1) with hk | hk
      · rw [← hk]; exact heq
      · exact h2 k hk hk2
    · rename_i hne
      cases h
      exact ⟨by omega, fun k hk1 hk2 => by omega, hne⟩

theorem ExtInv.weaken {hist : List Int} {i : Nat} {ext : List Nat} (h : ExtInv hist i ext) :
    ExtInv hist (i + 1) ext := by
  obtain ⟨U, h1, h2, h3, h4, h5⟩ := h
  exact ⟨U, h1, h2, h3, h4, fun m hm k hk => h5 m hm k (by omega)⟩

theorem ExtInv.push {hist : List Int} {i : Nat} {ext : List Nat} (h : ExtInv hist i ext)
    (hi : i < hist.length) (hc : Changes hist i) (m : Nat) (hm : i ≤ m)
    (hup : ∀ s, s < hist.length → Changes hist s → m < s + hist.length)
    (hnext : ∀ k, i + 1 ≤ k → k < hist.length → Changes hist k → m < k) :
    ExtInv hist (i + 1) (ext ++ [m % hist.length]) := by
  obtain ⟨U, h1, h2, h3, h4, h5⟩ := h
  refine ⟨U ++ [m], by simp [h1], ?_, ?_, ?_, ?_⟩
  · rw [List.pairwise_append]
    refine ⟨h2, List.pairwise_singleton _ _, ?_⟩
    intro a ha b hb
    rw [List.mem_singleton] at hb
    subst hb
    exact lt_of_lt_of_le (h5 a ha i le_rfl hi hc) hm
  · intro a ha
    rcases List.mem_append.1 ha with ha | ha
    · exact h3 a ha
    · rw [List.mem_singleton] at ha
      subst ha
      exact ⟨i, hm, hi, hc⟩
  · intro a ha
    rcases List.mem_append.1 ha with ha | ha
    · exact h4 a ha
    · rw [List.mem_singleton] at ha
      subst ha
      exact hup
  · intro a ha k hk1 hk2 hk3
    rcases List.mem_append.1 ha with ha | ha
    · exact h5 a ha k (by omega) hk2 hk3
    · rw [List.mem_singleton] at ha
      subst ha
      exact hnext k hk1 hk2 hk3

theorem nodup_of_ExtInv {hist : List Int} {i : Nat} {ext : List Nat} (h : ExtInv hist i ext) :
    ext.Nodup := by
  obtain ⟨U, h1, h2, h3, h4, _⟩ := h
  subst h1
  have hpw : U.Pairwise (fun a b => a % hist.length ≠ b % hist.length) := by
    rw [List.pairwise_iff_forall_sublist] at h2 ⊢
    intro a b hab
    have hlt : a < b := h2 hab
    have ha : a ∈ U := hab.subset (by simp)
    have hb : b ∈ U := hab.subset (by simp)
    obtain ⟨s, hs1, hs2, hs3⟩ := h3 a ha
    have hb' : b < s + hist.length := h4 b hb s hs2 hs3
    intro heq
    have hd : (b - a) % hist.length = 0 := Nat.sub_mod_eq_zero_of_mod_eq heq.symm
    have hdvd : hist.length ∣ b - a := Nat.dvd_of_mod_eq_zero hd
    have := Nat.le_of_dvd (by omega) hdvd
    omega
  rw [List.Nodup, List.pairwise_map]
  exact hpw

theorem changes_iff_prev (hist : List Int) (h32 : Int32Entries hist) (i : Nat) (d : Int)
    (hd : d = sub32 (histAt hist i) (histAt hist ((i + hist.length - 1) % hist.length))) :
    d ≠ 0 ↔ Changes hist i := by
  rw [hd, Ne, sub32_eq_zero_iff hist h32]
  rfl

/-- The run that starts at a change `i` does not reach the next change on the circle. -/
theorem run_bounds (hist : List Int) (i j : Nat) (hi : i < hist.length) (hij : i < j)
    (hrun : ∀ k, i < k → k < j → histAt hist (k % hist.length) = histAt hist i) :
    (∀ s, s < hist.length → Changes hist s → j ≤ s + hist.length) ∧
      (∀ k, i + 1 ≤ k → k < hist.length → Changes hist k → j ≤ k) := by
  have hrun' : ∀ k, i ≤ k → k < j → histAt hist (k % hist.length) = histAt hist i := by
    intro k hk1 hk2
    rcases Nat.eq_or_lt_of_le hk1 with h | h
    · rw [← h, Nat.mod_eq_of_lt hi]
    · exact hrun k h hk2
  constructor
  · intro s hs hc
    by_contra hlt
    apply hc
    have h1 := hrun' (s + hist.length) (by omega) (by omega)
    have h2 := hrun' (s + hist.length - 1) (by omega) (by omega)
    rw [Nat.add_mod_right, Nat.mod_eq_of_lt hs] at h1
    rw [h1, h2]
  · intro k hk1 hk2 hc
    by_contra hlt
    apply hc
    have h1 := hrun' k (by omega) (by omega)
    have h2 := hrun' (k - 1) (by omega) (by omega)
    rw [Nat.mod_eq_of_lt hk2] at h1
    have h3 : (k + hist.length - 1) % hist.length = (k - 1) % hist.length := by
      have : k + hist.length - 1 = (k - 1) + hist.length := by omega
      rw [this, Nat.add_mod_right]
    rw [h1, h3, h2]

theorem extremesStep_inv (mul : Int → Int → Int) (hmul : ∀ b, ¬ mul 0 b < 0) (hist : List Int)
    (h32 : Int32Entries hist) (i : Nat) (hi : i < hist.length) (st st' : Int × List Nat)
    (hprev : st.1 = sub32 (histAt hist i) (histAt hist ((i + hist.length - 1) % hist.length)))
    (hinv : ExtInv hist i st.2) (hstep : extremesStep mul hist st i = some st') :
    st'.1 = sub32 (histAt hist ((i + 1) % hist.length)) (histAt hist i) ∧
      ExtInv hist (i + 1) st'.2 := by
  have hchg := changes_iff_prev hist h32 i st.1 hprev
  simp only [extremesStep] at hstep
  split at hstep
  · rename_i hcond
    cases hsk : skipRun hist i hist.length i with
    | none => simp [hsk] at hstep
    | some j =>
      simp only [hsk] at hstep
      obtain ⟨hij, hrun, _⟩ := skipRun_spec hist i hist.length i j hsk
      obtain ⟨hb1, hb2⟩ := run_bounds hist i j hi hij hrun
      have hm1 : i ≤ (i + j) / 2 := by omega
      have hm2 : (i + j) / 2 < j := by omega
      split at hstep
      · cases hstep
        refine ⟨rfl, hinv.push hi (hchg.1 hcond.1) _ hm1 ?_ ?_⟩
        · intro s hs hc
          exact lt_of_lt_of_le hm2 (hb1 s hs hc)
        · intro k hk1 hk2 hc
          exact lt_of_lt_of_le hm2 (hb2 k hk1 hk2 hc)
      · cases hstep
        exact ⟨rfl, hinv.weaken⟩
  · split at hstep
    · rename_i hneg
      cases hstep
      have h0 : st.1 ≠ 0 := by
        intro h0
        rw [h0] at hneg
        exact hmul _ hneg
      refine ⟨rfl, ?_⟩
      have := hinv.push hi (hchg.1 h0) i le_rfl (fun s _ _ => by omega)
        (fun k hk1 _ _ => by omega)
      rwa [Nat.mod_eq_of_lt hi] at this
    · cases hstep
      exact ⟨rfl, hinv.weaken⟩

theorem extremesLoop_inv (mul : Int → Int → Int) (hmul : ∀ b, ¬ mul 0 b < 0) (hist : List Int)
    (h32 : Int32Entries hist) (n i : Nat) (hn : i + n = hist.length) (st st' : Int × List Nat)
    (hprev : st.1 = sub32 (histAt hist (i % hist.length))
      (histAt hist ((i + hist.length - 1) % hist.length)))
    (hinv : ExtInv hist i st.2)
    (hloop : extremesLoop mul hist (List.range' i n) st = some st') :
    ExtInv hist hist.length st'.2 := by
  induction n generalizing i st with
  | zero =>
    simp only [List.range'_zero, extremesLoop] at hloop
    cases hloop
    have : i = hist.length := by omega
    rwa [this] at hinv
  | succ n ih =>
    rw [List.range'_succ] at hloop
    simp only [extremesLoop] at hloop
    have hi : i < hist.length := by omega
    rw [Nat.mod_eq_of_lt hi] at hprev
    cases hs : extremesStep mul hist st i with
    | none => simp [hs] at hloop
    | some st1 =>
      simp only [hs] at hloop
      obtain ⟨h1, h2⟩ := extremesStep_inv mul hmul hist h32 i hi st st1 hprev hinv hs
      refine ih (i + 1) (by omega) st1 ?_ h2 hloop
      rw [h1]
      have : i + 1 + hist.length - 1 = i + hist.length := by omega
      rw [this, Nat.add_mod_right, Nat.mod_eq_of_lt hi]

theorem mul32_zero_not_neg (b : Int) : ¬ mul32 0 b < 0 := by
  rw [mul32_zero_left]
  decide

/-- The extrema returned by `FindExtremes` are pairwise different. -/
theorem FindExtremesWith_nodup (mul : Int → Int → Int) (hmul : ∀ b, ¬ mul 0 b < 0)
    (hist : List Int) (h32 : Int32Entries hist) (e : List Nat)
    (he : FindExtremesWith mul hist = some e) : e.Nodup := by
  unfold FindExtremesWith at he
  simp only at he
  cases hl : extremesLoop mul hist (List.range hist.length)
      (sub32 (histAt hist 0) (histAt hist (hist.length - 1)), []) with
  | none => simp [hl] at he
  | some st =>
    simp only [hl] at he
    have hinv : ExtInv hist hist.length st.2 := by
      rw [List.range_eq_range'] at hl
      refine extremesLoop_inv mul hmul hist h32 hist.length 0 (by omega) _ st ?_ ?_ hl
      · simp only [Nat.zero_mod, Nat.zero_add]
        rcases Nat.eq_zero_or_pos hist.length with h0 | h0
        · simp [h0]
        · rw [Nat.mod_eq_of_lt (by omega)]
      · exact ⟨[], by simp⟩
    have hnd : (st.2.insertionSort (· ≤ ·)).Nodup :=
      (List.perm_insertionSort _ _).nodup_iff.2 (nodup_of_ExtInv hinv)
    revert he hnd
    generalize st.2.insertionSort (· ≤ ·) = l
    intro he hnd
    match l, he, hnd with
    | e0 :: e1 :: rest, he, hnd =>
      simp only [rotateToValley] at he
      split at he
      · cases he
        have hp : (e1 :: rest ++ [e0]).Perm (e0 :: e1 :: rest) := by
          have := @List.perm_append_comm _ [e0] (e1 :: rest)
          simpa using this.symm
        exact hp.nodup_iff.2 hnd
      · cases he
        exact hnd
    | [], he, _ => simp [rotateToValley] at he
    | [_], he, _ => simp [rotateToValley] at he

theorem Counts.int32 {hist : List Int} (h : Counts hist) : Int32Entries hist :=
  fun x hx => ⟨by have := (h x hx).1; omega, (h x hx).2⟩

theorem histAt_counts (hist : List Int) (h : Counts hist) (k : Nat) :
    0 ≤ histAt hist k ∧ histAt hist k < 2147483648 := by
  unfold histAt
  rw [List.getD_eq_getElem?_getD]
  cases hk : hist[k]? with
  | none => simp
  | some x => simpa using h x (List.getElem?_mem hk)

theorem sub32_counts (hist : List Int) (h : Counts hist) (a b : Nat) :
    sub32 (histAt hist a) (histAt hist b) = histAt hist a - histAt hist b := by
  have ha := histAt_counts hist h a
  have hb := histAt_counts hist h b
  exact wrap32_eq_self _ (by omega) (by omega)

theorem survives_iff (hist : List Int) (h : Counts hist) (e : List Nat) (t : Int) (k : Nat) :
    survives hist e t k = true ↔
      t ≤ min (histAt hist (e.getD k 0) - histAt hist (e.getD ((k - 1) % e.length) 0))
        (histAt hist (e.getD k 0) - histAt hist (e.getD ((k + 1) % e.length) 0)) := by
  simp only [survives, decide_eq_true_eq, ge_iff_le, sub32_counts hist h]

theorem mem_peakPositions (n k : Nat) : k ∈ peakPositions n ↔ k < n ∧ k % 2 = 1 := by
  simp [peakPositions]

theorem nodup_peaks (hist : List Int) (e : List Nat) (t : Int) (hnd : e.Nodup) :
    (((peakPositions e.length).filter (survives hist e t)).map (fun k => e.getD k 0)).Nodup := by
  refine List.Nodup.map_on ?_ ((List.nodup_range _).filter _ |>.filter _)
  intro a ha b hb hab
  have ha' := ((mem_peakPositions _ _).1 (List.mem_filter.1 ha).1).1
  have hb' := ((mem_peakPositions _ _).1 (List.mem_filter.1 hb).1).1
  rw [List.getD_eq_getElem _ _ ha', List.getD_eq_getElem _ _ hb'] at hab
  exact (hnd.getElem_inj_iff).1 hab

/-! ## Facts about ComputeIou -/

theorem or_eq_zero_left (x y : Nat) (h : x ||| y = 0) : x = 0 := by
  apply Nat.eq_of_testBit_eq
  intro i
  have := congrArg (fun n => Nat.testBit n i) h
  simp only [Nat.testBit_or, Nat.zero_testBit, Bool.or_eq_false_iff] at this
  simp [this.1]

theorem and_eq_zero_of_or_eq_zero (x y : Nat) (h : x ||| y = 0) : x &&& y = 0 := by
  rw [or_eq_zero_left x y h, Nat.zero_and]

theorem nonZero_and_le_or (x y : Nat) :
    (if (x &&& y != 0) = true then 1 else 0) ≤ (if (x ||| y != 0) = true then 1 else 0) := by
  by_cases h0 : x ||| y = 0
  · simp [h0, and_eq_zero_of_or_eq_zero x y h0]
  · by_cases h1 : x &&& y = 0 <;> simp [h0, h1]

theorem countNonZero_and_le_or (a b : Mask) :
    countNonZero (bitwiseAnd a b) ≤ countNonZero (bitwiseOr a b) := by
  induction a generalizing b with
  | nil => simp [bitwiseAnd, bitwiseOr, countNonZero]
  | cons x a ih =>
    cases b with
    | nil => simp [bitwiseAnd, bitwiseOr, countNonZero]
    | cons y b =>
      have ih' := ih b
      simp only [bitwiseAnd, bitwiseOr, countNonZero, List.zipWith_cons_cons,
        List.countP_cons] at ih' ⊢
      exact Nat.add_le_add ih' (nonZero_and_le_or x y)

theorem ComputeIou_bounds (a b : Mask) (q : ℚ) (h : ComputeIou a b = some q) : 0 ≤ q ∧ q ≤ 1 := by
  unfold ComputeIou divDouble at h
  simp only at h
  split at h
  · simp at h
  · rename_i hne
    cases h
    have hle := countNonZero_and_le_or a b
    have hpos : (0 : ℚ) < (countNonZero (bitwiseOr a b) : ℚ) := by
      have : (0 : ℚ) ≤ (countNonZero (bitwiseOr a b) : ℚ) := Nat.cast_nonneg _
      exact lt_of_le_of_ne this (Ne.symm hne)
    constructor
    · exact div_nonneg (Nat.cast_nonneg _) (Nat.cast_nonneg _)
    · rw [div_le_one hpos]
      exact_mod_cast hle

/-! ## The inner loop of ComputePq -/

/-- What the inner loop of `ComputePq` computes from the pair `(m0, i0)` over the truth masks
`l` numbered from `n`: a bound of every IoU and of `m0`, and either the pair it started
with or the IoU of the truth mask at the index that it returns. -/
theorem bestMatch_fold (p : Mask) (l : List Mask) (n : Nat) (m0 : ℚ) (i0 : Nat) :
    m0 ≤ ((l.enumFrom n).foldl (bestMatchStep p) (m0, i0)).1 ∧
    (∀ t ∈ l, ∀ q, ComputeIou p t = some q →
      q ≤ ((l.enumFrom n).foldl (bestMatchStep p) (m0, i0)).1) ∧
    ((l.enumFrom n).foldl (bestMatchStep p) (m0, i0) = (m0, i0) ∨
      ∃ t, l[((l.enumFrom n).foldl (bestMatchStep p) (m0, i0)).2 - n]? = some t ∧
        n ≤ ((l.enumFrom n).foldl (bestMatchStep p) (m0, i0)).2 ∧
        ComputeIou p t = some ((l.enumFrom n).foldl (bestMatchStep p) (m0, i0)).1) := by
  induction l generalizing n m0 i0 with
  | nil => simp
  | cons t l ih =>
    simp only [List.enumFrom_cons, List.foldl_cons]
    cases hq : ComputeIou p t with
    | none =>
      have hst : bestMatchStep p (m0, i0) (n, t) = (m0, i0) := by simp [bestMatchStep, hq]
      rw [hst]
      obtain ⟨h1, h2, h3⟩ := ih (n + 1) m0 i0
      refine ⟨h1, ?_, ?_⟩
      · intro t' ht' q hq'
        rcases List.mem_cons.1 ht' with h | h
        · subst h
          rw [hq] at hq'
          cases hq'
        · exact h2 t' h q hq'
      · rcases h3 with h3 | ⟨t', h3, h4, h5⟩
        · exact Or.inl h3
        · refine Or.inr ⟨t', ?_, by omega, h5⟩
          have : ((l.enumFrom (n + 1)).foldl (bestMatchStep p) (m0, i0)).2 - n =
              (((l.enumFrom (n + 1)).foldl (bestMatchStep p) (m0, i0)).2 - (n + 1)) + 1 := by
            omega
          rw [this, List.getElem?_cons_succ]
          exact h3
    | some q0 =>
      by_cases hge : q0 ≥ m0
      · have hst : bestMatchStep p (m0, i0) (n, t) = (q0, n) := by
          simp [bestMatchStep, hq, hge]
        rw [hst]
        obtain ⟨h1, h2, h3⟩ := ih (n + 1) q0 n
        refine ⟨le_trans hge h1, ?_, ?_⟩
        · intro t' ht' q hq'
          rcases List.mem_cons.1 ht' with h | h
          · subst h
            rw [hq] at hq'
            cases hq'
            exact h1
          · exact h2 t' h q hq'
        · rcases h3 with h3 | ⟨t', h3, h4, h5⟩
          · refine Or.inr ⟨t, ?_, ?_, ?_⟩
            · rw [h3]; simp
            · rw [h3]
            · rw [h3]; exact hq
          · refine Or.inr ⟨t', ?_, by omega, h5⟩
            have : ((l.enumFrom (n + 1)).foldl (bestMatchStep p) (q0, n)).2 - n =
                (((l.enumFrom (n + 1)).foldl (bestMatchStep p) (q0, n)).2 - (n + 1)) + 1 := by
              omega
            rw [this, List.getElem?_cons_succ]
            exact h3
      · have hst : bestMatchStep p (m0, i0) (n, t) = (m0, i0) := by
          simp [bestMatchStep, hq, hge]
        rw [hst]
        obtain ⟨h1, h2, h3⟩ := ih (n + 1) m0 i0
        refine ⟨h1, ?_, ?_⟩
        · intro t' ht' q hq'
          rcases List.mem_cons.1 ht' with h | h
          · subst h
            rw [hq] at hq'
            cases hq'
            exact le_trans (le_of_lt (lt_of_not_ge hge)) h1
          · exact h2 t' h q hq'
        · rcases h3 with h3 | ⟨t', h3, h4, h5⟩
          · exact Or.inl h3
          · refine Or.inr ⟨t', ?_, by omega, h5⟩
            have : ((l.enumFrom (n + 1)).foldl (bestMatchStep p) (m0, i0)).2 - n =
                (((l.enumFrom (n + 1)).foldl (bestMatchStep p) (m0, i0)).2 - (n + 1)) + 1 := by
              omega
            rw [this, List.getElem?_cons_succ]
            exact h3

theorem bestMatch_nonneg (p : Mask) (T : List Mask) : 0 ≤ (bestMatch p T).1 :=
  (bestMatch_fold p T 0 0 _).1

theorem bestMatch_upper (p : Mask) (T : List Mask) (t : Mask) (ht : t ∈ T) (q : ℚ)
    (hq : ComputeIou p t = some q) : q ≤ (bestMatch p T).1 :=
  (bestMatch_fold p T 0 0 _).2.1 t ht q hq

theorem bestMatch_attained (p : Mask) (T : List Mask) (h : 0 < (bestMatch p T).1) :
    ∃ t, T[(bestMatch p T).2]? = some t ∧ ComputeIou p t = some (bestMatch p T).1 := by
  rcases (bestMatch_fold p T 0 0 18446744073709551615).2.2 with h3 | ⟨t, h3, _, h5⟩
  · have : (bestMatch p T).1 = 0 := congrArg Prod.fst h3
    rw [this] at h
    exact absurd h (lt_irrefl _)
  · exact ⟨t, by simpa using h3, h5⟩

theorem bestMatch_le_one (p : Mask) (T : List Mask) : (bestMatch p T).1 ≤ 1 := by
  rcases (bestMatch_fold p T 0 0 18446744073709551615).2.2 with h3 | ⟨t, _, _, h5⟩
  · have : (bestMatch p T).1 = 0 := congrArg Prod.fst h3
    rw [this]
    exact zero_le_one
  · exact (ComputeIou_bounds p t _ h5).2

/-! ## The outer loop of ComputePq -/

theorem pqStep_matched (T : List Mask) (st : PqState) (n : Nat) (p : Mask)
    (h : matched T p = true) :
    pqStep T st (n, p) =
      { sum_iou := st.sum_iou + (bestMatch p T).1
        tp := st.tp + 1
        matched_predicted_masks := st.matched_predicted_masks.set n true
        matched_truth_masks := st.matched_truth_masks.set (bestMatch p T).2 true } := by
  simp only [matched, decide_eq_true_eq] at h
  simp only [pqStep, h, if_true]

theorem pqStep_unmatched (T : List Mask) (st : PqState) (n : Nat) (p : Mask)
    (h : matched T p = false) : pqStep T st (n, p) = st := by
  simp only [matched, decide_eq_false_iff_not] at h
  simp only [pqStep, h, if_false]

theorem pqFold_sum (T : List Mask) (l : List Mask) (n : Nat) (st : PqState) :
    ((l.enumFrom n).foldl (pqStep T) st).sum_iou =
      st.sum_iou + ((l.filter (matched T)).map (fun p => (bestMatch p T).1)).sum := by
  induction l generalizing n st with
  | nil => simp
  | cons p l ih =>
    simp only [List.enumFrom_cons, List.foldl_cons]
    rw [ih]
    cases h : matched T p with
    | true => simp [pqStep_matched T st n p h, List.filter_cons, h, add_assoc]
    | false => simp [pqStep_unmatched T st n p h, List.filter_cons, h]

theorem pqFold_tp (T : List Mask) (l : List Mask) (n : Nat) (st : PqState) :
    ((l.enumFrom n).foldl (pqStep T) st).tp = st.tp + l.countP (matched T) := by
  induction l generalizing n st with
  | nil => simp
  | cons p l ih =>
    simp only [List.enumFrom_cons, List.foldl_cons]
    rw [ih]
    cases h : matched T p with
    | true => simp [pqStep_matched T st n p h, List.countP_cons, h]; omega
    | false => simp [pqStep_unmatched T st n p h, List.countP_cons, h]

theorem set_length_append (pre : List Bool) (x y : Bool) (xs : List Bool) :
    (pre ++ x :: xs).set pre.length y = pre ++ y :: xs := by
  induction pre with
  | nil => rfl
  | cons a pre ih => simp [ih]

theorem pqFold_predicted (T : List Mask) (l : List Mask) (n : Nat) (st : PqState)
    (pre : List Bool) (hpre : pre.length = n)
    (hst : st.matched_predicted_masks = pre ++ List.replicate l.length false) :
    ((l.enumFrom n).foldl (pqStep T) st).matched_predicted_masks = pre ++ l.map (matched T) := by
  induction l generalizing n st pre with
  | nil => simpa using hst
  | cons p l ih =>
    simp only [List.enumFrom_cons, List.foldl_cons]
    rw [ih (n + 1) _ (pre ++ [matched T p]) (by simp [hpre])]
    · simp
    · cases h : matched T p with
      | true =>
        rw [pqStep_matched T st n p h]
        simp only [hst, List.length_cons, List.replicate_succ, ← hpre, set_length_append]
        simp
      | false =>
        rw [pqStep_unmatched T st n p h, hst]
        simp [List.replicate_succ]

theorem pqFold_truth (T : List Mask) (l : List Mask) (n : Nat) (st : PqState) :
    ((l.enumFrom n).foldl (pqStep T) st).matched_truth_masks =
      (l.filter (matched T)).foldl (fun mt p => mt.set (bestMatch p T).2 true)
        st.matched_truth_masks := by
  induction l generalizing n st with
  | nil => simp
  | cons p l ih =>
    simp only [List.enumFrom_cons, List.foldl_cons]
    rw [ih]
    cases h : matched T p with
    | true => simp [pqStep_matched T st n p h, List.filter_cons, h]
    | false => simp [pqStep_unmatched T st n p h, List.filter_cons, h]

/-- The sum of the IoUs of the matched predicted masks. -/
theorem pqLoop_sum (P T : List Mask) :
    (pqLoop P T).sum_iou = ((P.filter (matched T)).map (fun p => (bestMatch p T).1)).sum := by
  simp [pqLoop, List.enum_eq_enumFrom, pqFold_sum]

theorem pqLoop_tp (P T : List Mask) : (pqLoop P T).tp = P.countP (matched T) := by
  simp [pqLoop, List.enum_eq_enumFrom, pqFold_tp]

theorem pqLoop_predicted (P T : List Mask) :
    (pqLoop P T).matched_predicted_masks = P.map (matched T) := by
  have := pqFold_predicted T P 0
    ⟨0, 0, List.replicate P.length false, List.replicate T.length false⟩ [] rfl (by simp)
  simpa [pqLoop, List.enum_eq_enumFrom] using this

theorem pqLoop_truth (P T : List Mask) :
    (pqLoop P T).matched_truth_masks =
      (P.filter (matched T)).foldl (fun mt p => mt.set (bestMatch p T).2 true)
        (List.replicate T.length false) := by
  simp [pqLoop, List.enum_eq_enumFrom, pqFold_truth]

theorem falsePositives_eq (P T : List Mask) :
    falsePositives P T = P.countP (fun p => !matched T p) := by
  rw [falsePositives, pqLoop_predicted, List.count, List.countP_map]
  congr 1
  funext p
  cases h : matched T p <;> simp [Function.comp, h]

theorem tp_add_fp (P T : List Mask) : (pqLoop P T).tp + falsePositives P T = P.length := by
  rw [pqLoop_tp, falsePositives_eq, List.length_eq_countP_add_countP (matched T) P]
  congr 1
  congr 1
  funext p
  cases matched T p <;> simp

/-! ## The marks on the truth masks -/

theorem foldl_set_length (ps : List Mask) (f : Mask → Nat) (l0 : List Bool) :
    (ps.foldl (fun mt p => mt.set (f p) true) l0).length = l0.length := by
  induction ps generalizing l0 with
  | nil => rfl
  | cons p ps ih => simp [ih]

theorem count_false_set_true (l : List Bool) (i : Nat) :
    l.count false ≤ (l.set i true).count false + 1 := by
  induction l generalizing i with
  | nil => simp
  | cons b l ih =>
    cases i with
    | zero => cases b <;> simp [List.count_cons]
    | succ i =>
      have := ih i
      simp only [List.set_cons_succ, List.count_cons]
      omega

theorem foldl_set_count (ps : List Mask) (f : Mask → Nat) (l0 : List Bool) :
    l0.count false ≤ (ps.foldl (fun mt p => mt.set (f p) true) l0).count false + ps.length := by
  induction ps generalizing l0 with
  | nil => simp
  | cons p ps ih =>
    have h1 := ih (l0.set (f p) true)
    have h2 := count_false_set_true l0 (f p)
    simp only [List.foldl_cons, List.length_cons]
    omega

theorem truth_le_tp_add_fn (P T : List Mask) :
    T.length ≤ (pqLoop P T).tp + falseNegatives P T := by
  have h := foldl_set_count (P.filter (matched T)) (fun p => (bestMatch p T).2)
    (List.replicate T.length false)
  rw [falseNegatives, pqLoop_truth, pqLoop_tp, List.countP_eq_length_filter]
  simp only [List.count_replicate_self] at h
  omega

theorem fn_le_truth (P T : List Mask) : falseNegatives P T ≤ T.length := by
  rw [falseNegatives, pqLoop_truth]
  refine le_trans (List.count_le_length _ _) ?_
  rw [foldl_set_length]
  simp

/-! ## Bounds of the sum of the IoUs -/

theorem sum_map_le_length (l : List Mask) (f : Mask → ℚ) (h : ∀ p ∈ l, f p ≤ 1) :
    (l.map f).sum ≤ l.length := by
  induction l with
  | nil => simp
  | cons p l ih =>
    have h1 := h p (List.mem_cons_self _ _)
    have h2 := ih fun x hx => h x (List.mem_cons_of_mem _ hx)
    simp only [List.map_cons, List.sum_cons, List.length_cons, Nat.cast_add, Nat.cast_one]
    linarith

theorem sum_map_nonneg (l : List Mask) (f : Mask → ℚ) (h : ∀ p ∈ l, 0 ≤ f p) :
    0 ≤ (l.map f).sum := by
  induction l with
  | nil => simp
  | cons p l ih =>
    have h1 := h p (List.mem_cons_self _ _)
    have h2 := ih fun x hx => h x (List.mem_cons_of_mem _ hx)
    simp only [List.map_cons, List.sum_cons]
    linarith

theorem sum_iou_nonneg (P T : List Mask) : 0 ≤ (pqLoop P T).sum_iou := by
  rw [pqLoop_sum]
  exact sum_map_nonneg _ _ fun p _ => bestMatch_nonneg p T

theorem sum_iou_le_tp (P T : List Mask) : (pqLoop P T).sum_iou ≤ (pqLoop P T).tp := by
  rw [pqLoop_sum, pqLoop_tp, List.countP_eq_length_filter]
  exact sum_map_le_length _ _ fun p _ => bestMatch_le_one p T

theorem pqDenominator_pos (P T : List Mask) (h : ¬ (P = [] ∧ T = [])) :
    0 < pqDenominator P T := by
  have h1 := tp_add_fp P T
  have h2 := truth_le_tp_add_fn P T
  have h3 : 1 ≤ P.length ∨ 1 ≤ T.length := by
    rcases P with _ | ⟨p, P⟩
    · rcases T with _ | ⟨t, T⟩
      · exact absurd ⟨rfl, rfl⟩ h
      · right; simp
    · left; simp
  have h4 : 1 ≤ 2 * (pqLoop P T).tp + falsePositives P T + falseNegatives P T := by omega
  have h5 : (1 : ℚ) ≤ 2 * ((pqLoop P T).tp : ℚ) + (falsePositives P T : ℚ) +
      (falseNegatives P T : ℚ) := by exact_mod_cast h4
  unfold pqDenominator
  linarith

theorem tp_le_pqDenominator (P T : List Mask) : ((pqLoop P T).tp : ℚ) ≤ pqDenominator P T := by
  have h1 : (0 : ℚ) ≤ (falsePositives P T : ℚ) := Nat.cast_nonneg _
  have h2 : (0 : ℚ) ≤ (falseNegatives P T : ℚ) := Nat.cast_nonneg _
  unfold pqDenominator
  linarith

/-! ## The IoU of binary masks -/

theorem bitwiseAnd_self (m : Mask) : bitwiseAnd m m = m := by
  induction m with
  | nil => rfl
  | cons x m ih =>
    simp only [bitwiseAnd, List.zipWith_cons_cons, Nat.and_self] at ih ⊢
    rw [ih]

theorem bitwiseOr_self (m : Mask) : bitwiseOr m m = m := by
  induction m with
  | nil => rfl
  | cons x m ih =>
    simp only [bitwiseOr, List.zipWith_cons_cons, Nat.or_self] at ih ⊢
    rw [ih]

theorem ComputeIou_self (m : Mask) (h : 0 < countNonZero m) : ComputeIou m m = some 1 := by
  have hne : (countNonZero m : ℚ) ≠ 0 := by
    have : countNonZero m ≠ 0 := by omega
    exact_mod_cast this
  simp [ComputeIou, divDouble, bitwiseAnd_self, bitwiseOr_self, hne]

theorem eq_of_countNonZero_and_eq_or (a b : Mask) (hlen : a.length = b.length)
    (ha : ∀ v ∈ a, v = 0 ∨ v = 255) (hb : ∀ v ∈ b, v = 0 ∨ v = 255)
    (h : countNonZero (bitwiseAnd a b) = countNonZero (bitwiseOr a b)) : a = b := by
  induction a generalizing b with
  | nil =>
    cases b with
    | nil => rfl
    | cons y b => simp at hlen
  | cons x a ih =>
    cases b with
    | nil => simp at hlen
    | cons y b =>
      have hle := countNonZero_and_le_or a b
      have hxy := nonZero_and_le_or x y
      simp only [bitwiseAnd, bitwiseOr, countNonZero, List.zipWith_cons_cons,
        List.countP_cons] at h hle
      have h1 : (if (x &&& y != 0) = true then 1 else 0) =
          (if (x ||| y != 0) = true then 1 else 0) := by omega
      have h2 : a = b := by
        apply ih b (by simpa using hlen) (fun v hv => ha v (List.mem_cons_of_mem _ hv))
          (fun v hv => hb v (List.mem_cons_of_mem _ hv))
        simp only [bitwiseAnd, bitwiseOr, countNonZero]
        omega
      have hx := ha x (List.mem_cons_self _ _)
      have hy := hb y (List.mem_cons_self _ _)
      rw [h2]
      congr 1
      rcases hx with rfl | rfl <;> rcases hy with rfl | rfl
      · rfl
      · simp at h1
      · simp at h1
      · rfl

theorem eq_of_ComputeIou_eq_one (n : Nat) (a b : Mask) (ha : BinaryMask n a)
    (hb : BinaryMask n b) (h : ComputeIou a b = some 1) : a = b := by
  apply eq_of_countNonZero_and_eq_or a b (ha.1.trans hb.1.symm) ha.2 hb.2
  unfold ComputeIou divDouble at h
  simp only at h
  split at h
  · simp at h
  · rename_i hne
    have h' := Option.some.inj h
    rw [div_eq_one_iff_eq hne] at h'
    exact_mod_cast h'

/-! ## Marks that are set -/

theorem foldl_set_iff (ps : List Mask) (f : Mask → Nat) (l0 : List Bool) (j : Nat) :
    (ps.foldl (fun mt p => mt.set (f p) true) l0)[j]? = some true ↔
      l0[j]? = some true ∨ (j < l0.length ∧ ∃ p ∈ ps, f p = j) := by
  induction ps generalizing l0 with
  | nil => simp
  | cons p ps ih =>
    rw [List.foldl_cons, ih, List.length_set, List.getElem?_set]
    constructor
    · rintro (h | ⟨hj, q, hq, hqj⟩)
      · split at h
        · rename_i heq
          split at h
          · rename_i hlt
            exact Or.inr ⟨heq ▸ hlt, p, List.mem_cons_self _ _, heq⟩
          · cases h
        · exact Or.inl h
      · exact Or.inr ⟨hj, q, List.mem_cons_of_mem _ hq, hqj⟩
    · rintro (h | ⟨hj, q, hq, hqj⟩)
      · left
        split
        · rename_i heq
          have hj : j < l0.length := (List.getElem?_eq_some.1 h).1
          simp [heq ▸ hj]
        · exact h
      · rcases List.mem_cons.1 hq with rfl | hq
        · left
          simp [hqj, hj]
        · exact Or.inr ⟨hj, q, hq, hqj⟩

theorem count_false_eq_zero (l : List Bool) (h : ∀ j, j < l.length → l[j]? = some true) :
    l.count false = 0 := by
  rw [List.count_eq_zero]
  intro hmem
  obtain ⟨j, hj, hjb⟩ := List.mem_iff_getElem.1 hmem
  have := h j hj
  rw [List.getElem?_eq_getElem hj, hjb] at this
  cases this

/-! ## Predicted masks that are the truth masks -/

theorem bestMatch_of_mem (n : Nat) (P T : List Mask) (hbin : ∀ m ∈ P, BinaryMask n m)
    (hnz : ∀ m ∈ P, 0 < countNonZero m) (hperm : T.Perm P) (p : Mask) (hp : p ∈ P) :
    (bestMatch p T).1 = 1 ∧ T[(bestMatch p T).2]? = some p := by
  have h1 : (bestMatch p T).1 = 1 :=
    le_antisymm (bestMatch_le_one p T)
      (bestMatch_upper p T p (hperm.mem_iff.2 hp) 1 (ComputeIou_self p (hnz p hp)))
  refine ⟨h1, ?_⟩
  obtain ⟨t, ht, hq⟩ := bestMatch_attained p T (by rw [h1]; exact zero_lt_one)
  rw [h1] at hq
  have htP : t ∈ P := hperm.mem_iff.1 (List.getElem?_mem ht)
  rw [ht, eq_of_ComputeIou_eq_one n p t (hbin p hp) (hbin t htP) hq]

theorem falseNegatives_eq_zero_of_perm (n : Nat) (P T : List Mask) (hnd : P.Nodup)
    (hbin : ∀ m ∈ P, BinaryMask n m) (hnz : ∀ m ∈ P, 0 < countNonZero m) (hperm : T.Perm P)
    (hm : P.filter (matched T) = P) : falseNegatives P T = 0 := by
  rw [falseNegatives, pqLoop_truth, hm]
  apply count_false_eq_zero
  intro j hj
  rw [foldl_set_length, List.length_replicate] at hj
  rw [foldl_set_iff]
  refine Or.inr ⟨by simpa using hj, T[j], hperm.mem_iff.1 (List.getElem_mem hj), ?_⟩
  have hb := (bestMatch_of_mem n P T hbin hnz hperm T[j]
    (hperm.mem_iff.1 (List.getElem_mem hj))).2
  obtain ⟨hj', heq⟩ := List.getElem?_eq_some.1 hb
  exact ((hperm.nodup_iff.2 hnd).getElem_inj_iff).1 heq

/-! ## The order of the truth masks -/

theorem bestMatch_fst_le (p : Mask) (T T' : List Mask) (hsub : ∀ t ∈ T, t ∈ T') :
    (bestMatch p T).1 ≤ (bestMatch p T').1 := by
  rcases lt_or_eq_of_le (bestMatch_nonneg p T) with h | h
  · obtain ⟨t, ht, hq⟩ := bestMatch_attained p T h
    exact bestMatch_upper p T' t (hsub t (List.getElem?_mem ht)) _ hq
  · rw [← h]
    exact bestMatch_nonneg p T'

theorem bestMatch_fst_perm (p : Mask) (T T' : List Mask) (h : T.Perm T') :
    (bestMatch p T).1 = (bestMatch p T').1 :=
  le_antisymm (bestMatch_fst_le p T T' fun _ ht => h.mem_iff.1 ht)
    (bestMatch_fst_le p T' T fun _ ht => h.mem_iff.2 ht)

theorem matched_perm (T T' : List Mask) (h : T.Perm T') : matched T = matched T' := by
  funext p
  simp only [matched, bestMatch_fst_perm p T T' h]

theorem isBestOf_perm (P T T' : List Mask) (h : T.Perm T') : isBestOf P T = isBestOf P T' := by
  funext t
  simp only [isBestOf, matched_perm T T' h, bestMatch_fst_perm _ T T' h]

theorem NoTies.perm {P T T' : List Mask} (h : NoTies P T) (hp : T.Perm T') : NoTies P T' := by
  unfold NoTies at h ⊢
  refine (hp.pairwise_iff ?_).1 h
  intro a b hab p hpP heq
  have := hab p hpP heq.symm
  simp only [iouAtLeastHalf] at this ⊢
  rw [heq]
  exact this

theorem count_false_eq_countP (L : List Bool) (T : List Mask) (ψ : Mask → Bool)
    (hlen : L.length = T.length)
    (h : ∀ (j : Nat) (t : Mask), T[j]? = some t → (L[j]? = some true ↔ ψ t = true)) :
    L.count false = T.countP (fun t => !ψ t) := by
  induction T generalizing L with
  | nil =>
    have : L = [] := List.length_eq_zero.1 (by simpa using hlen)
    subst this
    rfl
  | cons t T ih =>
    cases L with
    | nil => simp at hlen
    | cons b L =>
      have h0 := h 0 t (by simp)
      have ih' := ih L (by simpa using hlen) (fun j t' hj => by
        have := h (j + 1) t' (by simpa using hj)
        simpa using this)
      rw [List.count_cons, List.countP_cons, ih']
      congr 1
      simp only [List.getElem?_cons_zero, Option.some.injEq] at h0
      cases b <;> cases hψ : ψ t <;> simp_all

theorem matched_pos (T : List Mask) (p : Mask) (h : matched T p = true) :
    0 < (bestMatch p T).1 := by
  simp only [matched, decide_eq_true_eq] at h
  have : (0 : ℚ) < 1 / 2 := by norm_num
  exact lt_of_lt_of_le this h

/-- When no predicted mask has a tie, the truth mask at position `j` is marked exactly when it
is the best match of a matched predicted mask. -/
theorem marked_iff_isBestOf (P T : List Mask) (hno : NoTies P T) (j : Nat) (t : Mask)
    (hj : T[j]? = some t) :
    (∃ p ∈ P.filter (matched T), (bestMatch p T).2 = j) ↔ isBestOf P T t = true := by
  simp only [isBestOf, List.any_eq_true, Bool.and_eq_true, decide_eq_true_eq]
  constructor
  · rintro ⟨p, hp, hidx⟩
    obtain ⟨hpP, hpm⟩ := List.mem_filter.1 hp
    obtain ⟨t', ht', hq⟩ := bestMatch_attained p T (matched_pos T p hpm)
    rw [hidx, hj] at ht'
    cases ht'
    exact ⟨p, hpP, hpm, hq⟩
  · rintro ⟨p, hpP, hpm, hq⟩
    refine ⟨p, List.mem_filter.2 ⟨hpP, hpm⟩, ?_⟩
    obtain ⟨t', ht', hq'⟩ := bestMatch_attained p T (matched_pos T p hpm)
    by_contra hne
    obtain ⟨hi, hti⟩ := List.getElem?_eq_some.1 ht'
    obtain ⟨hj', htj⟩ := List.getElem?_eq_some.1 hj
    have hhalf : ∀ x, ComputeIou p x = some (bestMatch p T).1 → iouAtLeastHalf p x = true := by
      intro x hx
      simp only [matched, decide_eq_true_eq] at hpm
      simp only [iouAtLeastHalf, hx, decide_eq_true_eq]
      exact hpm
    have hpw := List.pairwise_iff_getElem.1 hno
    rcases Nat.lt_or_gt_of_ne hne with hlt | hgt
    · have := hpw _ _ hi hj' hlt p hpP (by rw [hti, htj, hq, hq'])
      rw [hti, hhalf t' hq'] at this
      cases this
    · have := hpw _ _ hj' hi hgt p hpP (by rw [hti, htj, hq, hq'])
      rw [htj, hhalf t hq] at this
      cases this

theorem falseNegatives_eq_countP (P T : List Mask) (hno : NoTies P T) :
    falseNegatives P T = T.countP (fun t => !isBestOf P T t) := by
  rw [falseNegatives, pqLoop_truth]
  apply count_false_eq_countP
  · rw [foldl_set_length, List.length_replicate]
  · intro j t hj
    rw [foldl_set_iff, ← marked_iff_isBestOf P T hno j t hj]
    have hj' : j < T.length := (List.getElem?_eq_some.1 hj).1
    constructor
    · rintro (h | ⟨_, h⟩)
      · simp [List.getElem?_replicate, hj'] at h
      · exact h
    · intro h
      exact Or.inr ⟨by simpa using hj', h⟩

/-! ## The order of the operands of ComputeIou -/

theorem bitwiseAnd_comm (a b : Mask) : bitwiseAnd a b = bitwiseAnd b a := by
  induction a generalizing b with
  | nil => cases b <;> rfl
  | cons x a ih =>
    cases b with
    | nil => rfl
    | cons y b =>
      simp only [bitwiseAnd, List.zipWith_cons_cons] at ih ⊢
      rw [ih b, Nat.and_comm]

theorem bitwiseOr_comm (a b : Mask) : bitwiseOr a b = bitwiseOr b a := by
  induction a generalizing b with
  | nil => cases b <;> rfl
  | cons x a ih =>
    cases b with
    | nil => rfl
    | cons y b =>
      simp only [bitwiseOr, List.zipWith_cons_cons] at ih ⊢
      rw [ih b, Nat.or_comm]

/-! ## Masks with an empty union -/

theorem ComputeIou_eq_none_iff (a b : Mask) :
    ComputeIou a b = none ↔ countNonZero (bitwiseOr a b) = 0 := by
  simp [ComputeIou, divDouble]

theorem bestMatchStep_of_none (p : Mask) (st : ℚ × Nat) (i : Nat) (t : Mask)
    (h : ComputeIou p t = none) : bestMatchStep p st (i, t) = st := by
  simp [bestMatchStep, h]

/-! ## ComputePq with rounding -/

/-- Without rounding, `ComputePqRounded` is `ComputePq`. -/
theorem ComputePqRounded_id (P T : List Mask) : ComputePqRounded id P T = ComputePq P T := by
  rfl

/-- Values of `roundDouble`: the `double`s 0.1, 5/9 and 0.6, a number that is a `double`, and
the halfway case `2 ^ 53 + 1`, which goes to the even significand. -/
theorem roundDouble_values :
    roundDouble (1 / 10) = 3602879701896397 / 36028797018963968 ∧
      roundDouble (5 / 9) = 2501999792983609 / 4503599627370496 ∧
      roundDouble (3 / 5) = 5404319552844595 / 9007199254740992 ∧
      roundDouble (1 / 2) = 1 / 2 ∧
      roundDouble (9007199254740993 : ℚ) = 9007199254740992 ∧
      roundDouble (-(1 / 10)) = -(3602879701896397 / 36028797018963968) := by
  decide!

/-! ## Facts about the hue angle -/

theorem lround_of_nonneg (x : ℚ) (h : 0 ≤ x) : lround x = round x := by
  rw [lround, if_pos h, round_eq]

theorem degrees_bounds (cv_pi rad : ℚ) (hpi : 0 < cv_pi) (h1 : -cv_pi ≤ rad) (h2 : rad ≤ cv_pi) :
    180 ≤ rad * 180 / cv_pi + 360 ∧ rad * 180 / cv_pi + 360 ≤ 540 := by
  constructor
  · have : -180 ≤ rad * 180 / cv_pi := by
      rw [le_div_iff₀ hpi]
      linarith
    linarith
  · have : rad * 180 / cv_pi ≤ 180 := by
      rw [div_le_iff₀ hpi]
      linarith
    linarith

/-! ## Facts about the chromatic projection -/

theorem ProjOnPlane_of_dot_eq_zero (point center norm : ℚ × ℚ × ℚ)
    (m : (ℚ × ℚ × ℚ) × (ℚ × ℚ × ℚ) × (ℚ × ℚ × ℚ))
    (h : vecDot norm (vecSub point center) = 0) : ProjOnPlane point center norm m = (0, 0, 0) := by
  simp [ProjOnPlane, h]

theorem vecDot_sub_self (norm c : ℚ × ℚ × ℚ) : vecDot norm (vecSub c c) = 0 := by
  simp [vecDot, vecSub]

theorem eq_white_of_dot_eq_zero (sqrt3 : ℚ) (p : ℚ × ℚ × ℚ) (h3 : 0 < sqrt3)
    (hr : p.1 ≤ 1) (hg : p.2.1 ≤ 1) (hb : p.2.2 ≤ 1)
    (h : vecDot (1 / sqrt3, 1 / sqrt3, 1 / sqrt3) (vecSub p (1, 1, 1)) = 0) :
    p.1 = 1 ∧ p.2.1 = 1 ∧ p.2.2 = 1 := by
  simp only [vecDot, vecSub] at h
  have hs : 0 < 1 / sqrt3 := one_div_pos.2 h3
  have h' : 1 / sqrt3 * ((p.1 - 1) + (p.2.1 - 1) + (p.2.2 - 1)) = 0 := by
    rw [← h]
    ring
  have hsum : (p.1 - 1) + (p.2.1 - 1) + (p.2.2 - 1) = 0 := by
    rcases mul_eq_zero.1 h' with h0 | h0
    · exact absurd h0 (ne_of_gt hs)
    · exact h0
  refine ⟨?_, ?_, ?_⟩ <;> linarith

/-! ## Facts about the clusters and the masks -/

theorem nearestPeak_fold_lt (h : Nat) (l : List Nat) (n : Nat) (best : Nat × Nat)
    (hb : best.2 < n) : ((l.enumFrom n).foldl (nearestPeakStep h) best).2 < n + l.length := by
  induction l generalizing n best with
  | nil => simpa using hb
  | cons p l ih =>
    simp only [List.enumFrom_cons, List.foldl_cons, List.length_cons]
    have hstep : (nearestPeakStep h best (n, p)).2 < n + 1 := by
      unfold nearestPeakStep
      split
      · simp
      · omega
    have := ih (n + 1) _ hstep
    omega

theorem assignCluster_lt (peaks : List Nat) (h : Nat) :
    assignCluster peaks h < clusterCount peaks := by
  cases peaks with
  | nil => simp [assignCluster, clusterCount]
  | cons p0 rest =>
    have := nearestPeak_fold_lt h rest 1 (circularDistance h p0, 0) (by simp)
    simp only [assignCluster, clusterCount]
    omega

theorem countP_range_eq_one (n c : Nat) (hc : c < n) (f : Nat → Bool)
    (hf : ∀ k, k < n → (f k = true ↔ k = c)) : (List.range n).countP f = 1 := by
  induction n with
  | zero => omega
  | succ n ih =>
    rw [List.range_succ, List.countP_append, List.countP_singleton]
    rcases Nat.eq_or_lt_of_le (Nat.le_of_lt_succ hc) with h | h
    · subst h
      have h0 : (List.range c).countP f = 0 := by
        rw [List.countP_eq_zero]
        intro k hk
        have hk' := List.mem_range.1 hk
        rw [hf k (by omega)]
        omega
      have h1 : f c = true := (hf c (by omega)).2 rfl
      simp [h0, h1]
    · have h0 := ih h fun k hk => hf k (by omega)
      have h1 : ¬ f n = true := by
        rw [hf n (by omega)]
        omega
      simp [h0, h1]

theorem getMasks_pixel (peaks pixel_hues : List Nat) (c i : Nat) (hc : c < clusterCount peaks)
    (hi : i < pixel_hues.length) :
    ((GetMasks peaks pixel_hues).getD c []).getD i 0 =
      if assignCluster peaks pixel_hues[i] = c then 255 else 0 := by
  simp [GetMasks, List.getD_eq_getElem?_getD, List.getElem?_map, List.getElem?_range hc,
    List.getElem?_eq_getElem hi]

theorem masksWithPixel_eq_one (peaks pixel_hues : List Nat) (i : Nat)
    (hi : i < pixel_hues.length) : masksWithPixel (GetMasks peaks pixel_hues) i = 1 := by
  rw [masksWithPixel, GetMasks, List.countP_map]
  apply countP_range_eq_one (clusterCount peaks) (assignCluster peaks pixel_hues[i])
    (assignCluster_lt peaks pixel_hues[i])
  intro k _
  simp only [Function.comp, List.getD_eq_getElem?_getD, List.getElem?_map,
    List.getElem?_eq_getElem hi, Option.map_some', Option.getD_some]
  by_cases hck : assignCluster peaks pixel_hues[i] = k
  · simp [hck]
  · simp [hck, Ne.symm hck]

theorem masks_disjoint (peaks pixel_hues : List Nat) (c1 c2 i : Nat)
    (h1 : c1 < clusterCount peaks) (h2 : c2 < clusterCount peaks) (hne : c1 ≠ c2)
    (hi : i < pixel_hues.length) :
    overlapAt ((GetMasks peaks pixel_hues).getD c1 []) ((GetMasks peaks pixel_hues).getD c2 []) i
      = false := by
  rw [overlapAt, getMasks_pixel peaks pixel_hues c1 i h1 hi,
    getMasks_pixel peaks pixel_hues c2 i h2 hi]
  by_cases ha : assignCluster peaks pixel_hues[i] = c1
  · simp [ha, hne]
  · simp [ha]

/-! ## Products that fit an int -/

theorem histAt_small (hist : List Int) (h : SmallCounts hist) (k : Nat) :
    0 ≤ histAt hist k ∧ histAt hist k ≤ 46340 := by
  unfold histAt
  rw [List.getD_eq_getElem?_getD]
  cases hk : hist[k]? with
  | none => simp
  | some x => simpa using h x (List.getElem?_mem hk)

theorem sub32_small (hist : List Int) (h : SmallCounts hist) (a b : Nat) :
    sub32 (histAt hist a) (histAt hist b) = histAt hist a - histAt hist b := by
  have ha := histAt_small hist h a
  have hb := histAt_small hist h b
  exact wrap32_eq_self _ (by omega) (by omega)

theorem delta_small (hist : List Int) (h : SmallCounts hist) (a b : Nat) :
    |histAt hist a - histAt hist b| ≤ 46340 := by
  have ha := histAt_small hist h a
  have hb := histAt_small hist h b
  rw [abs_le]
  constructor <;> omega

theorem mul32_small (a b : Int) (ha : |a| ≤ 46340) (hb : |b| ≤ 46340) : mul32 a b = a * b := by
  have h : |a * b| ≤ 46340 * 46340 := by
    rw [abs_mul]
    exact mul_le_mul ha hb (abs_nonneg b) (by decide)
  rw [abs_le] at h
  exact wrap32_eq_self _ (by omega) (by omega)

theorem extremesStep_eq_exact (hist : List Int) (h : SmallCounts hist) (st : Int × List Nat)
    (i : Nat) (hst : |st.1| ≤ 46340) :
    extremesStep mul32 hist st i = extremesStepExact hist st i := by
  simp only [extremesStep, extremesStepExact, sub32_small hist h,
    mul32_small _ _ hst (delta_small hist h _ _)]

theorem extremesStepExact_small (hist : List Int) (h : SmallCounts hist) (st st' : Int × List Nat)
    (i : Nat) (hs : extremesStepExact hist st i = some st') : |st'.1| ≤ 46340 := by
  have hd := delta_small hist h ((i + 1) % hist.length) i
  simp only [extremesStepExact] at hs
  split at hs
  · cases hj : skipRun hist i hist.length i with
    | none => simp [hj] at hs
    | some j =>
      simp only [hj] at hs
      split at hs <;> cases hs <;> exact hd
  · split at hs <;> cases hs <;> exact hd

theorem extremesLoop_eq_exact (hist : List Int) (h : SmallCounts hist) (is : List Nat)
    (st : Int × List Nat) (hst : |st.1| ≤ 46340) :
    extremesLoop mul32 hist is st = extremesLoopExact hist is st := by
  induction is generalizing st with
  | nil => rfl
  | cons i is ih =>
    simp only [extremesLoop, extremesLoopExact, extremesStep_eq_exact hist h st i hst]
    cases hs : extremesStepExact hist st i with
    | none => rfl
    | some st' => exact ih st' (extremesStepExact_small hist h st st' i hs)

theorem FindExtremes_eq_exact (hist : List Int) (h : SmallCounts hist) :
    FindExtremes hist = FindExtremesExact hist := by
  unfold FindExtremes FindExtremesWith FindExtremesExact
  simp only []
  rw [sub32_small hist h, extremesLoop_eq_exact hist h _ _ (delta_small hist h _ _)]

/-! ## Points on a line through the centre -/

theorem vecSub_pointOnRay (c p : ℚ × ℚ × ℚ) (t : ℚ) :
    vecSub (pointOnRay c p t) c = vecScale t (vecSub p c) := by
  simp only [pointOnRay, vecAdd, vecScale, vecSub]
  ext <;> simp

theorem vecDot_vecScale (n d : ℚ × ℚ × ℚ) (t : ℚ) : vecDot n (vecScale t d) = t * vecDot n d := by
  simp only [vecDot, vecScale]
  ring

theorem vecScale_div_ray (a b t : ℚ) (d : ℚ × ℚ × ℚ) (hb : b ≠ 0) (ht : t ≠ 0) :
    vecScale (a / (t * b)) (vecScale t d) = vecScale (a / b) d := by
  simp only [vecScale]
  ext <;> simp <;> field_simp <;> ring

theorem ProjOnPlane_of_dot_ne_zero (point center norm : ℚ × ℚ × ℚ)
    (m : (ℚ × ℚ × ℚ) × (ℚ × ℚ × ℚ) × (ℚ × ℚ × ℚ))
    (h : vecDot norm (vecSub point center) ≠ 0) :
    ProjOnPlane point center norm m =
      mulTransposed
        (vecSub center
          (vecScale (vecDot norm center / vecDot norm (vecSub point center))
            (vecSub point center))) m := by
  simp [ProjOnPlane, h]

theorem ProjOnPlane_pointOnRay (p c n : ℚ × ℚ × ℚ)
    (m : (ℚ × ℚ × ℚ) × (ℚ × ℚ × ℚ) × (ℚ × ℚ × ℚ)) (t : ℚ)
    (hn : vecDot n (vecSub p c) ≠ 0) (ht : t ≠ 0) :
    ProjOnPlane (pointOnRay c p t) c n m = ProjOnPlane p c n m := by
  have hn' : vecDot n (vecSub (pointOnRay c p t) c) ≠ 0 := by
    rw [vecSub_pointOnRay, vecDot_vecScale]
    exact mul_ne_zero ht hn
  rw [ProjOnPlane_of_dot_ne_zero _ _ _ _ hn', ProjOnPlane_of_dot_ne_zero _ _ _ _ hn,
    vecSub_pointOnRay, vecDot_vecScale, vecScale_div_ray _ _ _ _ hn ht]

theorem CentralProjOnLab_of_dot_ne_zero (sqrt2 sqrt3 sqrt6 : ℚ) (p : ℚ × ℚ × ℚ)
    (h : vecDot (1 / sqrt3, 1 / sqrt3, 1 / sqrt3) (vecSub p (1, 1, 1)) ≠ 0) :
    CentralProjOnLab sqrt2 sqrt3 sqrt6 p =
      some (mulTransposed
        (vecSub (1, 1, 1)
          (vecScale (vecDot (1 / sqrt3, 1 / sqrt3, 1 / sqrt3) (1, 1, 1) /
            vecDot (1 / sqrt3, 1 / sqrt3, 1 / sqrt3) (vecSub p (1, 1, 1))) (vecSub p (1, 1, 1))))
        ((1 / sqrt2, -1 / sqrt2, 0), (-1 / sqrt6, -1 / sqrt6, 2 / sqrt6),
          (1 / sqrt3, 1 / sqrt3, 1 / sqrt3))) := by
  have hw : ¬ (p.1 = 1 ∧ p.2.1 = 1 ∧ p.2.2 = 1) := by
    rintro ⟨h1, h2, h3⟩
    apply h
    simp [vecDot, vecSub, h1, h2, h3]
  simp only [CentralProjOnLab, if_neg hw, divDouble, if_neg h]

theorem CentralProjOnLab_pointOnRay (sqrt2 sqrt3 sqrt6 : ℚ) (p : ℚ × ℚ × ℚ) (t : ℚ)
    (hn : vecDot (1 / sqrt3, 1 / sqrt3, 1 / sqrt3) (vecSub p (1, 1, 1)) ≠ 0) (ht : t ≠ 0) :
    CentralProjOnLab sqrt2 sqrt3 sqrt6 (pointOnRay (1, 1, 1) p t) =
      CentralProjOnLab sqrt2 sqrt3 sqrt6 p := by
  have hn' : vecDot (1 / sqrt3, 1 / sqrt3, 1 / sqrt3)
      (vecSub (pointOnRay (1, 1, 1) p t) (1, 1, 1)) ≠ 0 := by
    rw [vecSub_pointOnRay, vecDot_vecScale]
    exact mul_ne_zero ht hn
  rw [CentralProjOnLab_of_dot_ne_zero _ _ _ _ hn', CentralProjOnLab_of_dot_ne_zero _ _ _ _ hn,
    vecSub_pointOnRay, vecDot_vecScale, vecScale_div_ray _ _ _ _ hn ht]

/-! ## The round trip of the transfer functions -/

theorem roundHalfEven_natCast (n : Nat) : roundHalfEven ((n : ℝ)) = n := by
  simp [roundHalfEven, Int.fract_natCast, Int.floor_natCast]

theorem saturateUchar_natCast (n : Nat) (h : n ≤ 255) : saturateUchar (n : Int) = n := by
  unfold saturateUchar
  have h1 : ¬ ((n : Int) < 0) := by omega
  have h2 : ¬ (255 < (n : Int)) := by omega
  simp [h1, h2]

theorem requantise (x : Nat) (h : x ≤ 255) :
    saturateUchar (roundHalfEven ((x : ℝ) * (1 / 255) * 255)) = x := by
  have : (x : ℝ) * (1 / 255) * 255 = (x : ℝ) := by ring
  rw [this, roundHalfEven_natCast, saturateUchar_natCast x h]

/-- The linear branch: the 8-bit values up to 10. -/
theorem channel_low (x : Nat) (h : x ≤ 10) :
    (x : ℝ) * (1 / 255) ≤ 0.04045 ∧ sRgbToLinChannel ((x : ℝ) * (1 / 255)) ≤ 0.0031308 ∧
      linToSRgbChannel (sRgbToLinChannel ((x : ℝ) * (1 / 255))) = (x : ℝ) * (1 / 255) := by
  have hx : (x : ℝ) ≤ 10 := by exact_mod_cast h
  have hv : (x : ℝ) * (1 / 255) ≤ 0.04045 := by norm_num; linarith
  have hlin : sRgbToLinChannel ((x : ℝ) * (1 / 255)) = (x : ℝ) * (1 / 255) / 12.92 := by
    rw [sRgbToLinChannel, if_pos hv]
  have hle : (x : ℝ) * (1 / 255) / 12.92 ≤ 0.0031308 := by norm_num; linarith
  refine ⟨hv, by rw [hlin]; exact hle, ?_⟩
  rw [hlin, linToSRgbChannel, if_pos hle]
  norm_num

theorem rpow_inverse (b : ℝ) (hb : 0 ≤ b) : (b ^ (2.4 : ℝ)) ^ ((1 : ℝ) / 2.4) = b := by
  rw [← Real.rpow_mul hb]
  norm_num

theorem rpow_fifth (b : ℝ) (hb : 0 ≤ b) : (b ^ (2.4 : ℝ)) ^ 5 = b ^ 12 := by
  rw [← Real.rpow_natCast, ← Real.rpow_mul hb, ← Real.rpow_natCast]
  norm_num

/-- The power branch: the 8-bit values from 11. -/
theorem channel_high (x : Nat) (h : 11 ≤ x) :
    0.04045 < (x : ℝ) * (1 / 255) ∧ 0.0031308 < sRgbToLinChannel ((x : ℝ) * (1 / 255)) ∧
      linToSRgbChannel (sRgbToLinChannel ((x : ℝ) * (1 / 255))) = (x : ℝ) * (1 / 255) := by
  have hx : (11 : ℝ) ≤ (x : ℝ) := by exact_mod_cast h
  have hv : 0.04045 < (x : ℝ) * (1 / 255) := by norm_num; linarith
  have hb0 : (0 : ℝ) ≤ ((x : ℝ) * (1 / 255) + 0.055) / 1.055 := by
    apply div_nonneg
    · positivity
    · norm_num
  have hb11 : ((11 : ℝ) * (1 / 255) + 0.055) / 1.055 ≤ ((x : ℝ) * (1 / 255) + 0.055) / 1.055 := by
    apply div_le_div_of_nonneg_right _ (by norm_num)
    linarith
  have hlin : sRgbToLinChannel ((x : ℝ) * (1 / 255)) =
      (((x : ℝ) * (1 / 255) + 0.055) / 1.055) ^ (2.4 : ℝ) := by
    rw [sRgbToLinChannel, if_neg (not_le.2 hv)]
  have hgt : (0.0031308 : ℝ) < (((x : ℝ) * (1 / 255) + 0.055) / 1.055) ^ (2.4 : ℝ) := by
    by_contra hle
    rw [not_lt] at hle
    have h5 := pow_le_pow_left₀ (Real.rpow_nonneg hb0 _) hle 5
    rw [rpow_fifth _ hb0] at h5
    have h12 : (((11 : ℝ) * (1 / 255) + 0.055) / 1.055) ^ 12 ≤
        (((x : ℝ) * (1 / 255) + 0.055) / 1.055) ^ 12 :=
      pow_le_pow_left₀ (by norm_num) hb11 12
    have hnum : (0.0031308 : ℝ) ^ 5 < (((11 : ℝ) * (1 / 255) + 0.055) / 1.055) ^ 12 := by
      norm_num
    linarith
  refine ⟨hv, by rw [hlin]; exact hgt, ?_⟩
  rw [hlin, linToSRgbChannel, if_neg (not_le.2 hgt), rpow_inverse _ hb0]
  field_simp
  ring

theorem channel_round_trip (x : Nat) (h : x ≤ 255) :
    ((x : ℝ) * (1 / 255) ≤ 0.04045 ↔ sRgbToLinChannel ((x : ℝ) * (1 / 255)) ≤ 0.0031308) ∧
      saturateUchar (roundHalfEven
        (linToSRgbChannel (sRgbToLinChannel ((x : ℝ) * (1 / 255))) * 255)) = x := by
  rcases Nat.lt_or_ge x 11 with hlt | hge
  · obtain ⟨h1, h2, h3⟩ := channel_low x (by omega)
    exact ⟨⟨fun _ => h2, fun _ => h1⟩, by rw [h3]; exact requantise x h⟩
  · obtain ⟨h1, h2, h3⟩ := channel_high x hge
    exact ⟨⟨fun h' => absurd h' (not_le.2 h1), fun h' => absurd h' (not_le.2 h2)⟩,
      by rw [h3]; exact requantise x h⟩

end DocColorDecomposer

open DocColorDecomposer

/-! ## The claims -/

set_option maxRecDepth 100000 in
/-- C1: on the histogram with one pixel at bin 10, 65536 pixels at bin 100 and one pixel at
bin 200, the product `65536 * (-65536)` of the deltas around bin 100 does not fit an `int`, the
peak at bin 100 is not found, and `FindExtremes` returns a list whose position 1 holds bin 150,
which is not higher than the bin at position 0: the list does not alternate valley/peak. -/
theorem FindExtremes_threeHues_not_alternating :
    FindExtremes histThreeHues = some [55, 150, 200, 285, 10] ∧
      ¬ (histAt histThreeHues 150 > histAt histThreeHues 55) := by
  decide!

set_option maxRecDepth 100000 in
/-- C2: on the histogram with 65536 pixels at bin 10 and one pixel at bin 100 the peak at
bin 10 is not found and `FindExtremes` returns a list of odd length 3. -/
theorem FindExtremes_twoHues_odd_length :
    FindExtremes histTwoHues = some [55, 100, 235] ∧
      ∀ e, FindExtremes histTwoHues = some e → e.length % 2 = 1 := by
  have h : FindExtremes histTwoHues = some [55, 100, 235] := by decide!
  refine ⟨h, ?_⟩
  intro e he
  rw [h] at he
  cases he
  rfl

/-- C3: raising the tolerance only removes peaks. When `FindPeaks hist t2` returns a list and
`t1 ≤ t2`, `FindPeaks hist t1` returns a list that holds every peak of the first one, and is at
least as long. -/
theorem FindPeaks_tolerance_antitone (hist : List Int) (t1 t2 : Int) (h : t1 ≤ t2)
    (ps2 : List Nat) (h2 : FindPeaks hist t2 = some ps2) :
    ∃ ps1, FindPeaks hist t1 = some ps1 ∧ (∀ p ∈ ps2, p ∈ ps1) ∧ ps2.length ≤ ps1.length := by
  cases he : FindExtremes hist with
  | none => simp [FindPeaks, he] at h2
  | some e =>
    rw [FindPeaks_eq hist t2 e he] at h2
    refine ⟨_, FindPeaks_eq hist t1 e he, ?_, ?_⟩
    · intro p hp
      have h2' := Option.some.inj h2
      rw [← h2'] at hp
      have hp' := (List.perm_insertionSort _ _).subset hp
      refine (List.perm_insertionSort _ _).symm.subset ?_
      rw [List.mem_map] at hp' ⊢
      obtain ⟨k, hk, rfl⟩ := hp'
      rw [List.mem_filter] at hk
      exact ⟨k, List.mem_filter.2 ⟨hk.1, survives_mono hist e t1 t2 h k hk.2⟩, rfl⟩
    · have h2' := Option.some.inj h2
      rw [← h2', (List.perm_insertionSort _ _).length_eq, (List.perm_insertionSort _ _).length_eq,
        List.length_map, List.length_map]
      exact (List.monotone_filter_right _ (survives_mono hist e t1 t2 h)).length_le

set_option maxRecDepth 100000 in
/-- Witness of C3 on the histogram with one pixel at bin 0 and three pixels at bin 120, for the
tolerances 1 and 2. -/
theorem FindPeaks_tolerance_antitone_witness :
    ∃ ps1, FindPeaks (histOf 360 fun k => if k = 0 then 1 else if k = 120 then 3 else 0) 1
        = some ps1 ∧ (∀ p ∈ [120], p ∈ ps1) ∧ [120].length ≤ ps1.length :=
  FindPeaks_tolerance_antitone _ 1 2 (by decide) [120] (by decide!)

/-- C4: when `FindExtremes` returns the list `e` on a histogram of counts, `FindPeaks hist t`
returns a strictly ascending list (hence without duplicates) that holds exactly the elements
`p` at the odd positions `k` of `e` for which
`min (hist[p] - hist[e[(k-1) mod len]]) (hist[p] - hist[e[(k+1) mod len]]) ≥ t`. -/
theorem FindPeaks_returns_surviving_peaks (hist : List Int) (hc : Counts hist) (t : Int)
    (e : List Nat) (he : FindExtremes hist = some e) :
    ∃ ps, FindPeaks hist t = some ps ∧ ps.Sorted (· < ·) ∧ ps.Nodup ∧
      ∀ p, p ∈ ps ↔ ∃ k, k < e.length ∧ k % 2 = 1 ∧ e.getD k 0 = p ∧
        t ≤ min (histAt hist p - histAt hist (e.getD ((k - 1) % e.length) 0))
          (histAt hist p - histAt hist (e.getD ((k + 1) % e.length) 0)) := by
  have hnd : e.Nodup := FindExtremesWith_nodup mul32 mul32_zero_not_neg hist hc.int32 e he
  have hnd' := (List.perm_insertionSort (· ≤ ·) _).nodup_iff.2 (nodup_peaks hist e t hnd)
  refine ⟨_, FindPeaks_eq hist t e he, (List.sorted_insertionSort (· ≤ ·) _).lt_of_le hnd',
    hnd', ?_⟩
  intro p
  rw [(List.perm_insertionSort (· ≤ ·) _).mem_iff, List.mem_map]
  constructor
  · rintro ⟨k, hk, rfl⟩
    obtain ⟨hk1, hk2⟩ := List.mem_filter.1 hk
    obtain ⟨hk3, hk4⟩ := (mem_peakPositions _ _).1 hk1
    exact ⟨k, hk3, hk4, rfl, (survives_iff hist hc e t k).1 hk2⟩
  · rintro ⟨k, hk3, hk4, rfl, hk2⟩
    exact ⟨k, List.mem_filter.2 ⟨(mem_peakPositions _ _).2 ⟨hk3, hk4⟩,
      (survives_iff hist hc e t k).2 hk2⟩, rfl⟩

/-- Witness of C4 on the histogram `[0, 3, 0, 1]` with tolerance 2. -/
theorem FindPeaks_returns_surviving_peaks_witness :
    ∃ ps, FindPeaks [0, 3, 0, 1] 2 = some ps ∧ ps.Sorted (· < ·) ∧ ps.Nodup ∧
      ∀ p, p ∈ ps ↔ ∃ k, k < [0, 1, 2, 3].length ∧ k % 2 = 1 ∧ [0, 1, 2, 3].getD k 0 = p ∧
        (2 : Int) ≤ min (histAt [0, 3, 0, 1] p -
            histAt [0, 3, 0, 1] ([0, 1, 2, 3].getD ((k - 1) % [0, 1, 2, 3].length) 0))
          (histAt [0, 3, 0, 1] p -
            histAt [0, 3, 0, 1] ([0, 1, 2, 3].getD ((k + 1) % [0, 1, 2, 3].length) 0)) :=
  FindPeaks_returns_surviving_peaks [0, 3, 0, 1] (by decide) 2 [0, 1, 2, 3] (by decide)

/-- C5: on a constant histogram the loop of `FindExtremes` records no extremum, so that the
reads `extremes[0]` and `extremes[1]` that follow are outside the (empty) list: neither
`FindExtremes` nor `FindPeaks` has a result. -/
theorem FindExtremes_constant_fails (n : Nat) (c t : Int) :
    extremesLoop mul32 (List.replicate n c) (List.range (List.replicate n c).length)
        (sub32 (histAt (List.replicate n c) 0)
          (histAt (List.replicate n c) ((List.replicate n c).length - 1)), []) = some (0, []) ∧
      FindExtremes (List.replicate n c) = none ∧ FindPeaks (List.replicate n c) t = none := by
  have hloop : extremesLoop mul32 (List.replicate n c) (List.range (List.replicate n c).length)
      (sub32 (histAt (List.replicate n c) 0)
        (histAt (List.replicate n c) ((List.replicate n c).length - 1)), []) = some (0, []) := by
    rw [List.length_replicate, prevDelta_replicate]
    exact extremesLoop_replicate n c _ fun i hi => List.mem_range.1 hi
  have hfe : FindExtremes (List.replicate n c) = none := by
    simp only [FindExtremes, FindExtremesWith, hloop]
    rfl
  exact ⟨hloop, hfe, by simp [FindPeaks, hfe]⟩

set_option maxRecDepth 100000 in
/-- C6: on the 360-bin histogram whose only non-zero bin is bin 10 with 65536 pixels, the
products `65536 * (-65536)` and `(-65536) * 65536` do not fit an `int`; no extremum is found,
and neither `FindExtremes` nor `FindPeaks` has a result. With 46340 pixels at bin 10 the
products fit and the results are the pair `[190, 10]` and the peak `[10]`. -/
theorem FindExtremes_oneHue_fails :
    FindExtremes histOneHue = none ∧ FindPeaks histOneHue 1 = none ∧
      FindExtremes (histOf 360 fun k => if k = 10 then 46340 else 0) = some [190, 10] ∧
      FindPeaks (histOf 360 fun k => if k = 10 then 46340 else 0) 1 = some [10] := by
  decide!

/-- C7, as the code has it: for a non-empty list `P` of pairwise different binary masks of
one size, each with a non-zero pixel, and every permutation `T` of `P`, `ComputePq P T` is
exactly 1. -/
theorem ComputePq_permutation_eq_one (n : Nat) (P T : List Mask) (hne : P ≠ [])
    (hnd : P.Nodup) (hbin : ∀ m ∈ P, BinaryMask n m) (hnz : ∀ m ∈ P, 0 < countNonZero m)
    (hperm : T.Perm P) : ComputePq P T = some 1 := by
  have hmatched : ∀ p ∈ P, matched T p = true := by
    intro p hp
    simp only [matched, decide_eq_true_eq, (bestMatch_of_mem n P T hbin hnz hperm p hp).1]
    norm_num
  have hfilter : P.filter (matched T) = P := List.filter_eq_self.2 hmatched
  have htp : (pqLoop P T).tp = P.length := by
    rw [pqLoop_tp]
    exact List.countP_eq_length.2 hmatched
  have hfp : falsePositives P T = 0 := by
    have := tp_add_fp P T
    omega
  have hfn := falseNegatives_eq_zero_of_perm n P T hnd hbin hnz hperm hfilter
  have hsum : (pqLoop P T).sum_iou = P.length := by
    rw [pqLoop_sum, hfilter]
    have : P.map (fun p => (bestMatch p T).1) = P.map (fun _ => (1 : ℚ)) :=
      List.map_congr_left fun p hp => (bestMatch_of_mem n P T hbin hnz hperm p hp).1
    rw [this]
    simp
  have hlen : (P.length : ℚ) ≠ 0 := by
    have : P.length ≠ 0 := fun h => hne (List.length_eq_zero.1 h)
    exact_mod_cast this
  simp [ComputePq, divDouble, pqDenominator, htp, hfp, hfn, hsum, hlen]

/-- Witness of C7 for two masks of two pixels. -/
theorem ComputePq_permutation_eq_one_witness :
    ComputePq [[255, 0], [0, 255]] [[0, 255], [255, 0]] = some 1 :=
  ComputePq_permutation_eq_one 2 [[255, 0], [0, 255]] [[0, 255], [255, 0]] (by decide)
    (by decide) (by decide) (by decide) (List.Perm.swap _ _ _)

/-- C7 fails when a mask occurs twice: for `P = T = [A, A]` with `A` one non-zero pixel both
predicted masks are matched with the second truth mask, the first truth mask is a false
negative, and the score is 2 / (2 + 0.5) = 0.8. -/
theorem ComputePq_duplicate_masks_not_one :
    ComputePq [[255], [255]] [[255], [255]] = some (4 / 5) ∧
      ComputePq [[255], [255]] [[255], [255]] ≠ some 1 := by
  decide!

/-- C8: the denominator `tp + 0.5 * (fp + fn)` of `ComputePq` is zero exactly when there is
neither a predicted mask nor a truth mask; in every other case it is strictly positive and
`ComputePq` returns a number between 0 and 1. -/
theorem ComputePq_score_in_unit_interval (P T : List Mask) :
    (pqDenominator P T = 0 ↔ P = [] ∧ T = []) ∧
      (¬ (P = [] ∧ T = []) →
        0 < pqDenominator P T ∧ ∃ q, ComputePq P T = some q ∧ 0 ≤ q ∧ q ≤ 1) := by
  constructor
  · constructor
    · intro h0
      by_contra hne
      have := pqDenominator_pos P T hne
      rw [h0] at this
      exact lt_irrefl _ this
    · rintro ⟨rfl, rfl⟩
      simp [pqDenominator, pqLoop, falsePositives, falseNegatives]
  · intro hne
    have hpos := pqDenominator_pos P T hne
    refine ⟨hpos, (pqLoop P T).sum_iou / pqDenominator P T, ?_, ?_, ?_⟩
    · simp [ComputePq, divDouble, ne_of_gt hpos]
    · exact div_nonneg (sum_iou_nonneg P T) (le_of_lt hpos)
    · rw [div_le_one hpos]
      exact le_trans (sum_iou_le_tp P T) (tp_le_pqDenominator P T)

/-- Witness of C8 for one predicted mask with two pixels and one truth mask that covers the
first pixel. -/
theorem ComputePq_score_in_unit_interval_witness :
    0 < pqDenominator [[255, 255]] [[255, 0]] ∧
      ∃ q, ComputePq [[255, 255]] [[255, 0]] = some q ∧ 0 ≤ q ∧ q ≤ 1 :=
  (ComputePq_score_in_unit_interval [[255, 255]] [[255, 0]]).2 (by decide)

/-- C9, as the code has it: every predicted mask is a true positive or a false positive, and
a truth mask can be the match of several predicted masks, so that the true positives and the
false negatives together are at least as many as the truth masks (and can be more). -/
theorem ComputePq_counts (P T : List Mask) :
    (pqLoop P T).tp + falsePositives P T = P.length ∧
      T.length ≤ (pqLoop P T).tp + falseNegatives P T ∧ falseNegatives P T ≤ T.length :=
  ⟨tp_add_fp P T, truth_le_tp_add_fn P T, fn_le_truth P T⟩

/-- C9 fails for the predicted masks `[A, A]` and the truth masks `[A]`, where `A` is one
non-zero pixel: the truth mask is matched by both predicted masks, which gives two true
positives, no false positive and no false negative. -/
theorem ComputePq_truth_mask_matched_twice :
    (pqLoop [[255], [255]] [[255]]).tp = 2 ∧ falsePositives [[255], [255]] [[255]] = 0 ∧
      falseNegatives [[255], [255]] [[255]] = 0 ∧
      (pqLoop [[255], [255]] [[255]]).tp + falseNegatives [[255], [255]] [[255]]
        ≠ [[255]].length := by
  decide!

/-- C10, as the code has it: when no predicted mask has the same IoU of at least 0.5 with
two of the truth masks, the order of the truth masks does not change the score. -/
theorem ComputePq_truth_order_irrelevant (P T T' : List Mask) (hperm : T.Perm T')
    (hno : NoTies P T) : ComputePq P T = ComputePq P T' := by
  have hsum : (pqLoop P T).sum_iou = (pqLoop P T').sum_iou := by
    rw [pqLoop_sum, pqLoop_sum, matched_perm T T' hperm]
    congr 2
    funext p
    exact bestMatch_fst_perm p T T' hperm
  have htp : (pqLoop P T).tp = (pqLoop P T').tp := by
    rw [pqLoop_tp, pqLoop_tp, matched_perm T T' hperm]
  have hfp : falsePositives P T = falsePositives P T' := by
    rw [falsePositives_eq, falsePositives_eq, matched_perm T T' hperm]
  have hfn : falseNegatives P T = falseNegatives P T' := by
    rw [falseNegatives_eq_countP P T hno, falseNegatives_eq_countP P T' (hno.perm hperm),
      isBestOf_perm P T T' hperm]
    exact hperm.countP_eq _
  simp only [ComputePq, pqDenominator, hsum, htp, hfp, hfn]

/-- Witness of C10 for one predicted mask and two truth masks. -/
theorem ComputePq_truth_order_irrelevant_witness :
    ComputePq [[255, 0]] [[255, 0], [0, 255]] = ComputePq [[255, 0]] [[0, 255], [255, 0]] :=
  ComputePq_truth_order_irrelevant [[255, 0]] [[255, 0], [0, 255]] [[0, 255], [255, 0]]
    (List.Perm.swap _ _ _) (by decide!)

/-- C10 fails when a predicted mask has a tie: the predicted mask `[255, 0, 0]` has IoU 0.5
with both truth masks and is matched with the last of them. In the order
`[[255, 255, 0], [255, 0, 255]]` the two predicted masks mark the two truth masks and the score
is 1 / 2; in the other order both mark `[255, 255, 0]`, the other truth mask is a false
negative, and the score is 1 / 2.5. -/
theorem ComputePq_truth_order_matters :
    ComputePq [[255, 0, 0], [0, 255, 0]] [[255, 255, 0], [255, 0, 255]] = some (1 / 2) ∧
      ComputePq [[255, 0, 0], [0, 255, 0]] [[255, 0, 255], [255, 255, 0]] = some (2 / 5) ∧
      ComputePq [[255, 0, 0], [0, 255, 0]] [[255, 255, 0], [255, 0, 255]] ≠
        ComputePq [[255, 0, 0], [0, 255, 0]] [[255, 0, 255], [255, 255, 0]] := by
  decide!

/-- C11, as the code has it: for two masks whose union has no non-zero pixel, `ComputeIou`
divides 0 by 0 without a guard and its result is NaN, not 0. The inner loop of `ComputePq`
leaves `max_iou` and `max_iou_idx` as they are for such a pair, because a NaN compares false
with `max_iou`, so the NaN does not reach the sum of the IoUs. -/
theorem ComputeIou_empty_union_is_nan (a b : Mask) (h : countNonZero (bitwiseOr a b) = 0) :
    ComputeIou a b = none ∧ ∀ (st : ℚ × Nat) (i : Nat), bestMatchStep a st (i, b) = st := by
  have hnone := (ComputeIou_eq_none_iff a b).2 h
  exact ⟨hnone, fun st i => bestMatchStep_of_none a st i b hnone⟩

/-- Witness of C11 for two masks of two pixels that are zero. -/
theorem ComputeIou_empty_union_is_nan_witness :
    ComputeIou [0, 0] [0, 0] = none ∧
      ∀ (st : ℚ × Nat) (i : Nat), bestMatchStep [0, 0] st (i, [0, 0]) = st :=
  ComputeIou_empty_union_is_nan [0, 0] [0, 0] (by decide)

/-- C11 fails for two masks of two pixels that are zero: the union is empty and the result of
`ComputeIou` is the NaN of 0 / 0, not the number 0. -/
theorem ComputeIou_empty_union_not_zero :
    countNonZero (bitwiseOr [0, 0] [0, 0]) = 0 ∧ ComputeIou [0, 0] [0, 0] ≠ some 0 := by
  decide!

/-- C12: `ComputeIou` is symmetric: for all masks `A` and `B` (of the same size or not),
`ComputeIou A B = ComputeIou B A`; for an empty union both are the NaN of 0 / 0. -/
theorem ComputeIou_symmetric (A B : Mask) : ComputeIou A B = ComputeIou B A := by
  simp only [ComputeIou, bitwiseAnd_comm A B, bitwiseOr_comm A B]

/-- C13: for every mask `A` with at least one non-zero pixel, `ComputeIou A A` is 1. -/
theorem ComputeIou_self_eq_one (A : Mask) (h : 0 < countNonZero A) : ComputeIou A A = some 1 :=
  ComputeIou_self A h

/-- Witness of C13 for a mask of three pixels, one of them non-zero. -/
theorem ComputeIou_self_eq_one_witness : ComputeIou [0, 255, 0] [0, 255, 0] = some 1 :=
  ComputeIou_self_eq_one [0, 255, 0] (by decide)

/-- C14: `ProjOnPlane` returns `(0, 0, 0)`, through the branch that does not divide, whenever
`norm . (point - center)` is zero, for every centre, normal and transformation; the white
point `(1, 1, 1)` as the point and the centre is such a case. `CentralProjOnLab` tests
for the white point itself and returns `(0, 0, 0)` for it, and the white point is the only
point with channels at most 1 whose displacement from white has no component along
`(1, 1, 1) / sqrt3`. -/
theorem ProjOnPlane_white_is_origin (point center norm : ℚ × ℚ × ℚ)
    (m : (ℚ × ℚ × ℚ) × (ℚ × ℚ × ℚ) × (ℚ × ℚ × ℚ)) (sqrt2 sqrt3 sqrt6 : ℚ)
    (h : vecDot norm (vecSub point center) = 0) :
    ProjOnPlane point center norm m = (0, 0, 0) ∧
      ProjOnPlane (1, 1, 1) (1, 1, 1) norm m = (0, 0, 0) ∧
      CentralProjOnLab sqrt2 sqrt3 sqrt6 (1, 1, 1) = some (0, 0, 0) ∧
      (0 < sqrt3 → point.1 ≤ 1 → point.2.1 ≤ 1 → point.2.2 ≤ 1 →
        vecDot (1 / sqrt3, 1 / sqrt3, 1 / sqrt3) (vecSub point (1, 1, 1)) = 0 →
        CentralProjOnLab sqrt2 sqrt3 sqrt6 point = some (0, 0, 0)) := by
  refine ⟨ProjOnPlane_of_dot_eq_zero point center norm m h,
    ProjOnPlane_of_dot_eq_zero _ _ norm m (vecDot_sub_self norm _), ?_, ?_⟩
  · simp [CentralProjOnLab]
  · intro h3 hr hg hb hdot
    have hw := eq_white_of_dot_eq_zero sqrt3 point h3 hr hg hb hdot
    simp [CentralProjOnLab, hw]

/-- Witness of C14 for the point `(1/2, 1, 3/2)` of the plane through white with the normal
`(1, 1, 1)`, and for the white point itself. -/
theorem ProjOnPlane_white_is_origin_witness :
    ProjOnPlane (1 / 2, 1, 3 / 2) (1, 1, 1) (1, 1, 1) ((1, -1, 0), (-1, -1, 2), (1, 1, 1))
        = (0, 0, 0) ∧
      CentralProjOnLab 1 1 1 (1, 1, 1) = some (0, 0, 0) :=
  ⟨(ProjOnPlane_white_is_origin (1 / 2, 1, 3 / 2) (1, 1, 1) (1, 1, 1)
      ((1, -1, 0), (-1, -1, 2), (1, 1, 1)) 1 1 1 (by norm_num [vecDot, vecSub])).1,
    (ProjOnPlane_white_is_origin (1, 1, 1) (1, 1, 1) (1, 1, 1)
      ((1, -1, 0), (-1, -1, 2), (1, 1, 1)) 1 1 1 (by norm_num [vecDot, vecSub])).2.2.2
      (by norm_num) (by norm_num) (by norm_num) (by norm_num) (by norm_num [vecDot, vecSub])⟩

/-- C15: on real numbers, for every list of 8-bit channel values, `LinRgbToSRgb` after
`SRgbToLinRgb`, with the re-quantisation to 8 bits, returns the list; for every 8-bit value
the forward function takes its linear branch (threshold 0.04045) exactly when the inverse
function takes its linear branch (threshold 0.0031308) on the result. -/
theorem SRgb_round_trip (src : List Nat) (h : ∀ x ∈ src, x ≤ 255) :
    LinRgbToSRgb (SRgbToLinRgb src) = src ∧
      ∀ x : Nat, x ∈ src → ((x : ℝ) * (1 / 255) ≤ 0.04045 ↔
        sRgbToLinChannel ((x : ℝ) * (1 / 255)) ≤ 0.0031308) := by
  constructor
  · simp only [LinRgbToSRgb, SRgbToLinRgb, List.map_map]
    conv_rhs => rw [← List.map_id src]
    exact List.map_congr_left fun x hx => (channel_round_trip x (h x hx)).2
  · exact fun x hx => (channel_round_trip x (h x hx)).1

/-- Witness of C15 for the channel values 0, 10, 11 and 255. -/
theorem SRgb_round_trip_witness :
    LinRgbToSRgb (SRgbToLinRgb [0, 10, 11, 255]) = [0, 10, 11, 255] ∧
      ∀ x : Nat, x ∈ [0, 10, 11, 255] → ((x : ℝ) * (1 / 255) ≤ 0.04045 ↔
        sRgbToLinChannel ((x : ℝ) * (1 / 255)) ≤ 0.0031308) :=
  SRgb_round_trip [0, 10, 11, 255] (by decide)

/-- C16: for `-cv_pi ≤ rad ≤ cv_pi`, `RadToDeg` is `round (rad * 180 / cv_pi + 360)` modulo
360, an integer from 0 to 359. -/
theorem RadToDeg_is_hue_angle (cv_pi rad : ℚ) (hpi : 0 < cv_pi) (h1 : -cv_pi ≤ rad)
    (h2 : rad ≤ cv_pi) :
    RadToDeg cv_pi rad = round (rad * 180 / cv_pi + 360) % 360 ∧
      0 ≤ RadToDeg cv_pi rad ∧ RadToDeg cv_pi rad < 360 := by
  obtain ⟨hlo, _⟩ := degrees_bounds cv_pi rad hpi h1 h2
  have hx : (0 : ℚ) ≤ rad * 180 / cv_pi + 360 := by linarith
  have hr : 0 ≤ round (rad * 180 / cv_pi + 360) := by
    rw [round_eq, Int.floor_nonneg]
    linarith
  have heq : RadToDeg cv_pi rad = round (rad * 180 / cv_pi + 360) % 360 := by
    rw [RadToDeg, lround_of_nonneg _ hx, Int.tmod_eq_emod hr (by decide)]
  rw [heq]
  exact ⟨rfl, Int.emod_nonneg _ (by decide), Int.emod_lt_of_pos _ (by decide)⟩

/-- Witness of C16 for the angle `-cv_pi` with `cv_pi = 355 / 113`. -/
theorem RadToDeg_is_hue_angle_witness :
    RadToDeg (355 / 113) (-(355 / 113)) =
        round (-(355 / 113) * 180 / (355 / 113) + 360 : ℚ) % 360 ∧
      0 ≤ RadToDeg (355 / 113) (-(355 / 113)) ∧ RadToDeg (355 / 113) (-(355 / 113)) < 360 :=
  RadToDeg_is_hue_angle (355 / 113) (-(355 / 113)) (by norm_num) (by norm_num) (by norm_num)

/-- C17, for the masks as the spec describes them: there is one mask for each cluster, every
pixel of the image is set in exactly one of the masks, and no pixel is set in two different
masks: the masks are pairwise disjoint and their union is the full pixel set. -/
theorem GetMasks_partition (peaks pixel_hues : List Nat) (i : Nat) (hi : i < pixel_hues.length) :
    masksWithPixel (GetMasks peaks pixel_hues) i = 1 ∧
      ∀ c1 c2, c1 < (GetMasks peaks pixel_hues).length → c2 < (GetMasks peaks pixel_hues).length →
        c1 ≠ c2 →
        overlapAt ((GetMasks peaks pixel_hues).getD c1 [])
          ((GetMasks peaks pixel_hues).getD c2 []) i = false := by
  refine ⟨masksWithPixel_eq_one peaks pixel_hues i hi, fun c1 c2 h1 h2 hne => ?_⟩
  have hlen : (GetMasks peaks pixel_hues).length = clusterCount peaks := by simp [GetMasks]
  rw [hlen] at h1 h2
  exact masks_disjoint peaks pixel_hues c1 c2 i h1 h2 hne hi

/-- Witness of C17 for the peaks 0 and 120 and the second pixel of an image with three pixels
of hue 120 and one of hue 0. -/
theorem GetMasks_partition_witness :
    masksWithPixel (GetMasks [0, 120] [120, 120, 120, 0]) 1 = 1 ∧
      ∀ c1 c2, c1 < (GetMasks [0, 120] [120, 120, 120, 0]).length →
        c2 < (GetMasks [0, 120] [120, 120, 120, 0]).length → c1 ≠ c2 →
        overlapAt ((GetMasks [0, 120] [120, 120, 120, 0]).getD c1 [])
          ((GetMasks [0, 120] [120, 120, 120, 0]).getD c2 []) 1 = false :=
  GetMasks_partition [0, 120] [120, 120, 120, 0] 1 (by decide)

set_option maxRecDepth 100000 in
/-- C18: on the histogram with 65536 pixels at bin 10 and 98304 at bin 11 the product
`65536 * 32768` of the two rising deltas at bin 10 does not fit an `int` and is negative as
an `int`, so bin 10 is reported as an extremum although the histogram rises through it:
`hist[9] < hist[10] < hist[11]`. -/
theorem FindExtremes_reports_non_extremum :
    FindExtremes histRisingPair = some [191, 10] ∧
      histAt histRisingPair 9 < histAt histRisingPair 10 ∧
      histAt histRisingPair 10 < histAt histRisingPair 11 := by
  decide!

set_option maxRecDepth 100000 in
/-- C19: on the histogram with 65536 pixels at bin 0 and three pixels at bin 120 the product
`65536 * (-65536)` at bin 0 does not fit an `int`, the peak at bin 0 is not found, and
`FindPeaks` with tolerance 1 returns the one peak `[120]`. With one pixel at bin 0 it returns
the two peaks `[0, 120]`. -/
theorem FindPeaks_two_hues_one_peak :
    FindPeaks histWhiteAndRed 1 = some [120] ∧
      FindPeaks (histOf 360 fun k => if k = 0 then 1 else if k = 120 then 3 else 0) 1
        = some [0, 120] := by
  decide!

set_option maxRecDepth 100000 in
/-- C20: in the arithmetic of `double`s the order of the predicted masks changes the score.
The predicted masks `threePredicted` have the IoUs 1/2, 5/9 and 3/5 with the truth masks
`fourTruth`, and the first of them has its largest IoU 1/2 with two truth masks, a duplicate
maximal IoU. `ComputePq` returns 0.473015873015873 for the predicted masks in this order and
0.47301587301587306 when the last two are exchanged: the sum `sum_iou` is rounded after each
addition, and `(1/2 + 5/9) + 3/5` and `(1/2 + 3/5) + 5/9` round to different `double`s. With
exact sums both orders give 149/315. -/
theorem ComputePq_predicted_order_matters :
    (∃ P P' T : List Mask,
        P.Perm P' ∧ ¬ NoTies P T ∧ ComputePqDouble P T ≠ ComputePqDouble P' T) ∧
      threePredicted.Perm threePredictedSwapped ∧
      threePredicted.map (fun p => (bestMatchRounded roundDouble p fourTruth).1) =
        [roundDouble (1 / 2), roundDouble (5 / 9), roundDouble (3 / 5)] ∧
      ComputeIou (threePredicted.getD 0 []) (fourTruth.getD 0 []) = some (1 / 2) ∧
      ComputeIou (threePredicted.getD 0 []) (fourTruth.getD 1 []) = some (1 / 2) ∧
      ComputePqDouble threePredicted fourTruth =
        some (4260548218909231 / 9007199254740992) ∧
      ComputePqDouble threePredictedSwapped fourTruth =
        some (8521096437818463 / 18014398509481984) ∧
      ComputePq threePredicted fourTruth = some (149 / 315) ∧
      ComputePq threePredictedSwapped fourTruth = some (149 / 315) := by
  have hperm : threePredicted.Perm threePredictedSwapped :=
    List.Perm.cons _ (List.Perm.swap _ _ _)
  refine ⟨⟨threePredicted, threePredictedSwapped, fourTruth, hperm, by decide!, by decide!⟩,
    hperm, by decide!, by decide!, by decide!, by decide!, by decide!, by decide!, by decide!⟩

/-- C21: for every histogram whose entries are between 0 and 46340, the differences of two
entries and the products of two such differences fit an `int`, so that the 32-bit product is
negative exactly when the product of the integers is, and `FindExtremes` returns what it
returns when it is computed with unbounded integers. -/
theorem FindExtremes_products_do_not_overflow (hist : List Int) (h : SmallCounts hist) :
    (∀ a b c d : Nat,
      mul32 (sub32 (histAt hist a) (histAt hist b)) (sub32 (histAt hist c) (histAt hist d)) =
        (histAt hist a - histAt hist b) * (histAt hist c - histAt hist d)) ∧
      FindExtremes hist = FindExtremesExact hist := by
  refine ⟨fun a b c d => ?_, FindExtremes_eq_exact hist h⟩
  rw [sub32_small hist h, sub32_small hist h]
  exact mul32_small _ _ (delta_small hist h a b) (delta_small hist h c d)

/-- Witness of C21 for the histogram `[0, 46340, 0, 1]`. -/
theorem FindExtremes_products_do_not_overflow_witness :
    (∀ a b c d : Nat,
      mul32 (sub32 (histAt [0, 46340, 0, 1] a) (histAt [0, 46340, 0, 1] b))
          (sub32 (histAt [0, 46340, 0, 1] c) (histAt [0, 46340, 0, 1] d)) =
        (histAt [0, 46340, 0, 1] a - histAt [0, 46340, 0, 1] b) *
          (histAt [0, 46340, 0, 1] c - histAt [0, 46340, 0, 1] d)) ∧
      FindExtremes [0, 46340, 0, 1] = FindExtremesExact [0, 46340, 0, 1] :=
  FindExtremes_products_do_not_overflow [0, 46340, 0, 1] (by decide)

/-- C22: the projection does not depend on the position of the point on its line through the
centre. For every centre `c`, normal `n`, transformation `m`, point `p` with
`n . (p - c) ≠ 0` and `t ≠ 0`, `ProjOnPlane` has the same value at `c + t * (p - c)` as at `p`;
with the white point as the centre, the same holds for `CentralProjOnLab`. -/
theorem ProjOnPlane_constant_on_rays (p c n : ℚ × ℚ × ℚ)
    (m : (ℚ × ℚ × ℚ) × (ℚ × ℚ × ℚ) × (ℚ × ℚ × ℚ)) (t : ℚ)
    (hn : vecDot n (vecSub p c) ≠ 0) (ht : t ≠ 0) :
    ProjOnPlane (pointOnRay c p t) c n m = ProjOnPlane p c n m ∧
      ∀ sqrt2 sqrt3 sqrt6 : ℚ,
        vecDot (1 / sqrt3, 1 / sqrt3, 1 / sqrt3) (vecSub p (1, 1, 1)) ≠ 0 →
        CentralProjOnLab sqrt2 sqrt3 sqrt6 (pointOnRay (1, 1, 1) p t) =
          CentralProjOnLab sqrt2 sqrt3 sqrt6 p :=
  ⟨ProjOnPlane_pointOnRay p c n m t hn ht,
    fun sqrt2 sqrt3 sqrt6 h => CentralProjOnLab_pointOnRay sqrt2 sqrt3 sqrt6 p t h ht⟩

/-- Witness of C22 for the colour `(1/2, 1/4, 0)`, the white point as the centre, the normal
`(1, 1, 1)` and `t = 1/2`: the colour half way to white has the same projection. -/
theorem ProjOnPlane_constant_on_rays_witness :
    ProjOnPlane (pointOnRay (1, 1, 1) (1 / 2, 1 / 4, 0) (1 / 2)) (1, 1, 1) (1, 1, 1)
        ((1, -1, 0), (-1, -1, 2), (1, 1, 1)) =
      ProjOnPlane (1 / 2, 1 / 4, 0) (1, 1, 1) (1, 1, 1) ((1, -1, 0), (-1, -1, 2), (1, 1, 1)) ∧
    CentralProjOnLab 1 1 1 (pointOnRay (1, 1, 1) (1 / 2, 1 / 4, 0) (1 / 2)) =
      CentralProjOnLab 1 1 1 (1 / 2, 1 / 4, 0) :=
  ⟨(ProjOnPlane_constant_on_rays (1 / 2, 1 / 4, 0) (1, 1, 1) (1, 1, 1)
      ((1, -1, 0), (-1, -1, 2), (1, 1, 1)) (1 / 2) (by norm_num [vecDot, vecSub])
      (by norm_num)).1,
    (ProjOnPlane_constant_on_rays (1 / 2, 1 / 4, 0) (1, 1, 1) (1, 1, 1)
      ((1, -1, 0), (-1, -1, 2), (1, 1, 1)) (1 / 2) (by norm_num [vecDot, vecSub])
      (by norm_num)).2 1 1 1 (by norm_num [vecDot, vecSub])⟩
